import Mathlib

/-!
Verification of the Kiryu public-log tabular document reconstruction engine:
a shallow embedding of the roll-call vote-sheet parser
(pipeline/src/scrape-voting-records.ts) and the question-notice parser
(the coordinate-based PDF module) into Lean 4, together with theorems
settling the frozen claims about them.

Strings are embedded as lists of characters (all characters that matter
here lie in the Basic Multilingual Plane, where one JavaScript UTF-16 code
unit is one code point, so JavaScript string indexing, length and slicing
agree with list operations on code points).  JavaScript regular expressions
over these fixed patterns are embedded as explicit character-level matching
functions with the same semantics (leftmost match, greedy or lazy
quantifiers as noted at each definition).
-/

namespace KiryuLog

/-- Embedded JavaScript string: a list of Unicode code points. -/
abbrev Str := List Char

/-- The ideographic space U+3000 that separates family and given names. -/
def ideoSpace : Char := '　'

/-- JavaScript whitespace (the set matched by String.prototype.trim and by
the regular-expression class backslash-s): ASCII whitespace, NBSP, BOM,
the Unicode Zs spaces, and the line and paragraph separators. -/
def isJsWs (c : Char) : Bool :=
  c.toNat = 0x9 ∨ c.toNat = 0xa ∨ c.toNat = 0xb ∨ c.toNat = 0xc ∨
  c.toNat = 0xd ∨ c.toNat = 0x20 ∨ c.toNat = 0xa0 ∨ c.toNat = 0x1680 ∨
  (0x2000 ≤ c.toNat ∧ c.toNat ≤ 0x200a) ∨ c.toNat = 0x2028 ∨
  c.toNat = 0x2029 ∨ c.toNat = 0x202f ∨ c.toNat = 0x205f ∨
  c.toNat = 0x3000 ∨ c.toNat = 0xfeff

/-- JavaScript String.prototype.trim: strip JS whitespace from both ends. -/
def jsTrim (s : Str) : Str :=
  ((s.dropWhile isJsWs).reverse.dropWhile isJsWs).reverse

/-- ASCII decimal digit (the regular-expression class backslash-d). -/
def isAsciiDigit (c : Char) : Bool := '0' ≤ c ∧ c ≤ '9'

/-- Whether pat occurs at the start of s (literal regex anchored at a
position). -/
def leadsWith : Str → Str → Bool
  | [], _ => true
  | _ :: _, [] => false
  | p :: ps, c :: cs => p = c && leadsWith ps cs

/-- Whether pat occurs at the end of s (String.prototype.endsWith). -/
def trailsWith (pat s : Str) : Bool := leadsWith pat.reverse s.reverse

/-- Whether pat occurs anywhere in s (String.prototype.includes). -/
def hasSub (pat : Str) : Str → Bool
  | [] => leadsWith pat []
  | c :: cs => leadsWith pat (c :: cs) || hasSub pat cs

/-- Index of the first occurrence of pat in s (String.prototype.indexOf,
None for not found). -/
def indexOfSub? (pat : Str) : Str → Option Nat
  | [] => if leadsWith pat [] then some 0 else none
  | c :: cs =>
    if leadsWith pat (c :: cs) then some 0
    else (indexOfSub? pat cs).map (· + 1)

/-- String.prototype.split on the newline character.  "a\nb" gives
["a", "b"], the empty string gives [""]. -/
def splitOnNl : Str → List Str
  | [] => [[]]
  | c :: cs =>
    if c = '\n' then [] :: splitOnNl cs
    else
      match splitOnNl cs with
      | [] => [[c]]
      | l :: ls => (c :: l) :: ls

/-- Full-width digit to half-width (the toHalf function, identical in both
source modules): characters U+FF10 to U+FF19 are shifted down by 0xFEE0,
everything else is unchanged. -/
def toHalf (s : Str) : Str :=
  s.map fun c =>
    if 0xff10 ≤ c.toNat ∧ c.toNat ≤ 0xff19 then Char.ofNat (c.toNat - 0xfee0)
    else c

/-- Remove every JS-whitespace character (the global replace of the
whitespace class used for names and titles). -/
def removeWs (s : Str) : Str := s.filter (fun c => ¬ isJsWs c)

/-- Concatenate a list of strings (Array.prototype.join with the empty
separator). -/
def joinStrs (l : List Str) : Str := l.foldl (· ++ ·) []

/-! ## Vote values and vote-symbol extraction -/

/-- The vote value union type of the source: approve, oppose, absent,
presiding (the speaker), left early. -/
inductive Vote where
  | sansei
  | hantai
  | kesseki
  | gichou
  | taiseki
deriving DecidableEq

/-- normalizeVote: trim, then map the recognized symbols and words to a
vote value; the presiding value is produced for any string containing the
two presiding characters. -/
def normalizeVote (s : Str) : Option Vote :=
  let t := jsTrim s
  if t = "○".toList ∨ t = "〇".toList ∨ t = "賛成".toList then some .sansei
  else if t = "×".toList ∨ t = "✕".toList ∨ t = "反対".toList then some .hantai
  else if t = "欠".toList ∨ t = "欠席".toList then some .kesseki
  else if hasSub "議長".toList t then some .gichou
  else if t = "△".toList ∨ t = "退".toList ∨ t = "退席".toList then some .taiseki
  else none

/-- A character matched by the vote-symbol pattern: one of the five marks,
or the single absence character. -/
def voteClassChar (c : Char) : Bool :=
  c = '○' ∨ c = '×' ∨ c = '〇' ∨ c = '✕' ∨ c = '△' ∨ c = '欠'

/-- extractVoteSymbols: every character matching the symbol pattern, in
order, normalized; a normalized presiding value is filtered out. -/
def extractVoteSymbols (s : Str) : List Vote :=
  s.filterMap fun c =>
    if voteClassChar c then
      match normalizeVote [c] with
      | some v => if v = Vote.gichou then none else some v
      | none => none
    else none

/-! ## Vertical name-block character collection -/

/-- CJK ideograph test of the source (Unified Ideographs and Extension A). -/
def isCJK (c : Char) : Bool :=
  (0x4e00 ≤ c.toNat ∧ c.toNat ≤ 0x9fff) ∨ (0x3400 ≤ c.toNat ∧ c.toNat ≤ 0x4dbf)

/-- Hiragana test of the source (U+3040 to U+309F). -/
def isHiragana (c : Char) : Bool := 0x3040 ≤ c.toNat ∧ c.toNat ≤ 0x309f

/-- Strip ASCII whitespace only (space, tab, CR, LF), keeping U+3000, as
the source does before testing a raw line for being a single vertical
character. -/
def stripAsciiWs (s : Str) : Str :=
  s.filter fun c => ¬ (c = ' ' ∨ c = '\t' ∨ c = '\r' ∨ c = '\n')

/-- Replace every occurrence of the (nonempty) literal pattern p :: ps by
rep, scanning left to right over non-overlapping matches (JavaScript
global literal replace).  Structural recursion on a fuel that bounds the
scan length: every step consumes at least one character, so fuel equal to
the string length never runs out (the fuel-exhausted branch is
unreachable from the wrapper). -/
def replaceAllGo (p : Char) (ps rep : Str) : Nat → Str → Str
  | 0, s => s
  | _ + 1, [] => []
  | fuel + 1, c :: cs =>
    if leadsWith (p :: ps) (c :: cs) then
      rep ++ replaceAllGo p ps rep fuel ((c :: cs).drop (ps.length + 1))
    else c :: replaceAllGo p ps rep fuel cs

/-- The literal global replace at full fuel. -/
def replaceAllSub (p : Char) (ps rep s : Str) : Str :=
  replaceAllGo p ps rep s.length s

/-- Remove one trailing occurrence of pat (the anchored-at-end global
regex replace, which can match only at the very end and does not rescan
its own output). -/
def stripTrailOnce (pat : Str) (s : Str) : Str :=
  if trailsWith pat s then s.take (s.length - pat.length) else s

/-- Remove one leading occurrence of pat (anchored-at-start replace). -/
def stripLeadOnce (pat : Str) (s : Str) : Str :=
  if leadsWith pat s then s.drop pat.length else s

/-- The ordered residual-phrase removals applied to the collected
character string: literal phrase removals, hiragana removal, the
edge-anchored presiding-characters removals, and the leading submission
remnants. -/
def cleanNameChars (s : Str) : Str :=
  let s1 := replaceAllSub '議' "長のため採決に加わらず".toList [] s
  let s2 := replaceAllSub '市' "長提出".toList [] s1
  let s3 := replaceAllSub '市' "　長　提　出".toList [] s2
  let s4 := replaceAllSub '議' "員提出".toList [] s3
  let s5 := replaceAllSub '委' "員会提出".toList [] s4
  let s6 := s5.filter fun c => ¬ (0x3041 ≤ c.toNat ∧ c.toNat ≤ 0x3093)
  let s7 := stripTrailOnce "議長".toList s6
  let s8 := stripLeadOnce "議長".toList s7
  let s9 := replaceAllSub '議' "採決加".toList [] s8
  let s10 := stripLeadOnce "提　出".toList s9
  stripLeadOnce "提出".toList s10

/-- One step of the vertical-character collection: walk the line indices
of the search window in order, stopping at a second occurrence of the
name-block header, collecting each line that strips to a single CJK
ideograph, ideographic space or hiragana character, once the first CJK
ideograph has been seen. -/
def collectNameChars (lines : List Str) (nameRegionStart : Nat) :
    List Nat → Bool → Str
  | [], _ => []
  | i :: rest, found =>
    let raw := lines.getD i []
    if i > nameRegionStart ∧ hasSub "議員氏名".toList raw then []
    else
      let stripped := stripAsciiWs raw
      match stripped with
      | [ch] =>
        if isCJK ch ∨ ch = ideoSpace ∨ isHiragana ch then
          let found' := found ∨ isCJK ch
          if found' then ch :: collectNameChars lines nameRegionStart rest found'
          else collectNameChars lines nameRegionStart rest found'
        else collectNameChars lines nameRegionStart rest found
      | _ => collectNameChars lines nameRegionStart rest found

/-- Index of the first line containing the name-block header, else of the
first line containing one of the legend markers. -/
def findNameRegionStart (lines : List Str) : Option Nat :=
  match (List.range lines.length).find?
      (fun i => hasSub "議員氏名".toList (lines.getD i [])) with
  | some i => some i
  | none =>
    (List.range lines.length).find? fun i =>
      hasSub "○：賛成".toList (lines.getD i []) ||
      hasSub "○:賛成".toList (lines.getD i []) ||
      hasSub "〇：賛成".toList (lines.getD i [])

/-- extractNameCharSequence: locate the name region, collect single
vertical characters in a window from five lines before it to 250 lines
after it, and clean residual phrases. -/
def extractNameCharSequence (text : Str) : Str :=
  let lines := splitOnNl text
  match findNameRegionStart lines with
  | none => []
  | some nameRegionStart =>
    let searchStart := nameRegionStart - 5
    let searchEnd := min lines.length (nameRegionStart + 250)
    let idxs := List.range' searchStart (searchEnd - searchStart)
    let allChars := collectNameChars lines nameRegionStart idxs false
    cleanNameChars allChars

/-! ## Family-name dictionaries and the separator repair -/

/-- Known single-character family names. -/
def KNOWN_1CHAR_FAMILIES : List Str := ["辻".toList]

/-- Known three-character family names, in source insertion order. -/
def KNOWN_3CHAR_FAMILIES : List Str :=
  ["久保田".toList, "河原井".toList, "山之内".toList]

/-- Known two-character family names, in source insertion order. -/
def KNOWN_2CHAR_FAMILIES : List Str :=
  ["飯島".toList, "歌代".toList, "渡辺".toList, "関口".toList, "小島".toList,
   "園田".toList, "北川".toList, "工藤".toList, "丹羽".toList, "人見".toList,
   "近藤".toList, "新井".toList, "岡部".toList, "福島".toList, "佐藤".toList,
   "周藤".toList, "小滝".toList, "伏木".toList, "森山".toList, "周東".toList,
   "田島".toList, "石渡".toList]

/-- One family-name pass of the separator repair: the global replace of
the family name with a negative lookahead for the ideographic space,
inserting the space after each occurrence not already followed by one.
The lookahead consumes nothing, so scanning resumes right after the
family name itself. -/
def fixFamGo (p : Char) (ps : Str) : Nat → Str → Str
  | 0, s => s
  | _ + 1, [] => []
  | fuel + 1, c :: cs =>
    if leadsWith (p :: ps) (c :: cs) ∧
        ((c :: cs).drop (ps.length + 1)).head? ≠ some ideoSpace then
      (p :: ps) ++ ideoSpace :: fixFamGo p ps fuel ((c :: cs).drop (ps.length + 1))
    else c :: fixFamGo p ps fuel cs

/-- One family-name pass at full fuel (structural recursion on a fuel
bounding the scan length; every step consumes at least one character). -/
def fixFam (p : Char) (ps s : Str) : Str := fixFamGo p ps s.length s

/-- The separator repair over every known three-character family name, in
source order. -/
def fixSeps (s : Str) : Str :=
  KNOWN_3CHAR_FAMILIES.foldl
    (fun acc fam =>
      match fam with
      | [] => acc
      | f :: fs => fixFam f fs acc)
    s

/-! ## Segment split and name assembly -/

/-- Split on the ideographic space, collapsing consecutive separators and
dropping empty segments, exactly as the character loop of the source
builds rawSegments. -/
def splitSegsGo (cur : Str) : Str → List Str
  | [] => if cur = [] then [] else [cur]
  | c :: cs =>
    if c = ideoSpace then
      if cur = [] then splitSegsGo [] cs else cur :: splitSegsGo [] cs
    else splitSegsGo (cur ++ [c]) cs

/-- The separator-delimited nonempty segments of a repaired character
sequence. -/
def splitSegs (s : Str) : List Str := splitSegsGo [] s

/-- JavaScript String.prototype.slice with one argument (negative counts
from the end). -/
def jsSliceFrom (s : Str) (start : Int) : Str :=
  let n : Int := s.length
  let st : Int := if start < 0 then max 0 (n + start) else min start n
  s.drop st.toNat

/-- JavaScript String.prototype.slice with two arguments. -/
def jsSlice (s : Str) (start stop : Int) : Str :=
  let n : Int := s.length
  let st : Int := if start < 0 then max 0 (n + start) else min start n
  let en : Int := if stop < 0 then max 0 (n + stop) else min stop n
  (s.take en.toNat).drop st.toNat

/-- The family-name length chosen for an interior segment (the embedded
next family name at the segment's end): the dictionary checks in source
order (three-character, then one-character, then the two-character check
on the last two characters when the segment has at least three), with
default two, then the validation that the implied given-name length lies
in one to four, retrying family lengths two, one, three in that order and
keeping the first valid one. -/
def interiorFamilyLen (seg : Str) : Int :=
  let afterDict : Int :=
    if KNOWN_3CHAR_FAMILIES.any
        (fun fam => trailsWith fam seg && decide (seg.length > fam.length)) then 3
    else if KNOWN_1CHAR_FAMILIES.any
        (fun fam => trailsWith fam seg && decide (seg.length > fam.length)) then 1
    else if decide (seg.length ≥ 3) &&
        decide (jsSliceFrom seg (-2) ∈ KNOWN_2CHAR_FAMILIES) then 2
    else 2
  let gLen : Int := (seg.length : Int) - afterDict
  if gLen < 1 ∨ gLen > 4 then
    match ([2, 1, 3] : List Int).find?
        (fun fLen =>
          let g : Int := (seg.length : Int) - fLen
          decide (1 ≤ g) && decide (g ≤ 4) && decide (1 ≤ fLen) &&
          decide (fLen ≤ 4)) with
    | some fLen => fLen
    | none => afterDict
  else afterDict

/-- The name-assembly loop over the segments after the first: the last
segment is a pure given name, every earlier one splits into the previous
member's given name and the next member's family name at the chosen
family length. -/
def splitNamesLoop (prevFamily : Str) : List Str → List Str
  | [] => []
  | [seg] =>
    if prevFamily ≠ [] ∧ seg ≠ [] then [prevFamily ++ ideoSpace :: seg] else []
  | seg :: seg2 :: rest =>
    let familyLen := interiorFamilyLen seg
    let given := jsSlice seg 0 ((seg.length : Int) - familyLen)
    let family := jsSliceFrom seg ((seg.length : Int) - familyLen)
    (if prevFamily ≠ [] ∧ given ≠ [] then [prevFamily ++ ideoSpace :: given]
     else []) ++ splitNamesLoop family (seg2 :: rest)

/-- splitNamesFromSequence: repair missing separators, split into
segments, and assemble full names; fewer than two segments yield no
names. -/
def splitNamesFromSequence (charStr : Str) : List Str :=
  let fixed := fixSeps charStr
  let rawSegments := splitSegs fixed
  if rawSegments.length < 2 then []
  else
    match rawSegments with
    | [] => []
    | first :: rest => splitNamesLoop first rest

/-- The deduplication loop of extractMemberNames: keep a name when it has
not been seen, in order. -/
def dedupeGo (seen : List Str) : List Str → List Str
  | [] => []
  | n :: rest =>
    if n ∈ seen then dedupeGo seen rest
    else n :: dedupeGo (n :: seen) rest

/-- extractMemberNames: decode the vertical name block and deduplicate
(multi-page documents repeat the names). -/
def extractMemberNames (text : Str) : List Str :=
  let charStr := extractNameCharSequence text
  if charStr = [] then []
  else dedupeGo [] (splitNamesFromSequence charStr)

/-! ## Result phrases and bill identifiers -/

/-- The prioritized outcome phrases of extractResult, in source order. -/
def resultAlts : List Str :=
  ["原案可決".toList, "修正可決".toList, "原案否決".toList, "同意".toList,
   "同　　意".toList, "同　意".toList, "採択".toList, "不採択".toList,
   "異議ない旨回答".toList, "異議ない旨\n回答".toList]

/-- extractResult: the first outcome phrase contained in the text, with
the consent and no-objection phrases normalized. -/
def extractResult (s : Str) : Str :=
  match resultAlts.find? (fun p => hasSub p s) with
  | some p =>
    if hasSub "同".toList p ∧ hasSub "意".toList p then "同意".toList
    else if hasSub "異議ない旨".toList p then "異議ない旨回答することに決定".toList
    else p
  | none => []

/-- The bill-identifier alternatives (prefix, digits, suffix), in the
order the regular-expression alternation tries them. -/
def billAlts : List (Str × Str) :=
  [("議案第".toList, "号".toList), ("報告第".toList, "号".toList),
   ("請願第".toList, "号".toList), ("陳情第".toList, "号".toList),
   ("発議案第".toList, "号".toList), ("議第".toList, "号議案".toList),
   ("諮問第".toList, "号".toList)]

/-- Try the bill alternatives at the start of s, returning the matched
identifier text. -/
def matchBillAt (s : Str) : Option Str :=
  billAlts.findSome? fun pr =>
    if leadsWith pr.1 s then
      let afterPre := s.drop pr.1.length
      let ds := afterPre.takeWhile isAsciiDigit
      if ds ≠ [] ∧ leadsWith pr.2 (afterPre.drop ds.length) then
        some (pr.1 ++ ds ++ pr.2)
      else none
    else none

/-- Leftmost bill-identifier match in s: position and matched text (the
position of the leftmost match is also the first index of the matched
text, so the indexOf of the source lands on the same position). -/
def findBill : Str → Option (Nat × Str)
  | [] => none
  | c :: cs =>
    match matchBillAt (c :: cs) with
    | some m => some (0, m)
    | none => (findBill cs).map (fun pm => (pm.1 + 1, pm.2))

/-! ## Line classifiers of the bill-block scanning loop -/

/-- Character-by-character prefix match allowing a JS-whitespace run
between consecutive pattern characters (the backslash-s-star gaps). -/
def wsSeq : List Char → Str → Bool
  | [], _ => true
  | c :: cs, s =>
    match s with
    | [] => false
    | x :: xs => x = c && (if cs = [] then true else wsSeq cs (xs.dropWhile isJsWs))

/-- Anchored era pattern: the era literal, optional whitespace, a digit. -/
def eraDigit (era : Str) (s : Str) : Bool :=
  if leadsWith era s then
    match (s.drop era.length).dropWhile isJsWs with
    | [] => false
    | c :: _ => isAsciiDigit c
  else false

/-- Anchored result-header pattern: the result character, optional
whitespace, the outcome character. -/
def ketsuKa (s : Str) : Bool :=
  match s with
  | c :: rest => c = '結' && leadsWith "果".toList (rest.dropWhile isJsWs)
  | [] => false

/-- The name-region stop condition of the vote-collection loop. -/
def stopHeader (t : Str) : Bool :=
  leadsWith "議員氏名".toList t || leadsWith "議案番号".toList t ||
  leadsWith "○：賛成".toList t || leadsWith "〇：賛成".toList t ||
  ketsuKa t || eraDigit "令和".toList t || eraDigit "平成".toList t

/-- A single CJK Unified Ideograph line. -/
def singleKanji (t : Str) : Bool :=
  match t with
  | [c] => 0x4e00 ≤ c.toNat ∧ c.toNat ≤ 0x9fff
  | _ => false

/-- A single CJK Unified Ideograph or ideographic-space line. -/
def kanjiOrSpace1 (t : Str) : Bool :=
  match t with
  | [c] => (0x4e00 ≤ c.toNat ∧ c.toNat ≤ 0x9fff) ∨ c = ideoSpace
  | _ => false

/-- The category-caption stop condition (submission captions and the
start of the presiding marker), with whitespace gaps. -/
def categoryStop (t : Str) : Bool :=
  wsSeq "市長提出".toList t || wsSeq "議長の".toList t ||
  wsSeq "議員提".toList t || wsSeq "委員会".toList t

/-- Guard on the text after an inline bill number: a title is rejected
when it starts with one of these characters or era words (the two-word
alternatives starting with the same character are subsumed by it). -/
def titleGuardStart (t : Str) : Bool :=
  match t with
  | [] => false
  | c :: _ =>
    c = '市' ∨ c = '議' ∨ c = '委' ∨ c = '○' ∨ c = '×' ∨ c = '〇' ∨ c = '結' ∨
    leadsWith "令和".toList t ∨ leadsWith "平成".toList t

/-- Line starts with a vote-symbol character. -/
def voteSymStart (t : Str) : Bool :=
  match t with
  | c :: _ => voteClassChar c
  | [] => false

/-- Line starts with a submission-caption character. -/
def titleStart3 (t : Str) : Bool :=
  match t with
  | c :: _ => c = '市' ∨ c = '議' ∨ c = '委'
  | [] => false

/-- Line consists only of ideographic spaces (nonempty). -/
def allIdeo (t : Str) : Bool := t ≠ [] && t.all (fun c => c = ideoSpace)

/-- Line starts with a character excluded from title continuations. -/
def titleStart5 (t : Str) : Bool :=
  match t with
  | c :: _ => c = '市' ∨ c = '議' ∨ c = '委' ∨ c = '○' ∨ c = '〇'
  | [] => false

/-! ## The presiding-marker removal inside a vote line -/

/-- Match a pattern of characters separated by optional whitespace at the
start of s, returning the remainder. -/
def wsSeqRem : List Char → Str → Option Str
  | [], s => some s
  | c :: cs, s =>
    match s with
    | [] => none
    | x :: xs =>
      if x = c then
        if cs = [] then some xs else wsSeqRem cs (xs.dropWhile isJsWs)
      else none

/-- Match one of the two presiding-marker alternatives at the start of s:
the contiguous marker phrase, or its spaced head followed lazily by
anything up to the first closing character; returns the remainder after
the match. -/
def markerAltRem (s : Str) : Option Str :=
  if leadsWith "議長のため採決に加わらず".toList s then some (s.drop 12)
  else
    match wsSeqRem "議長のため".toList s with
    | none => none
    | some rem =>
      match rem.dropWhile (· ≠ 'ず') with
      | [] => none
      | _ :: tail => some tail

/-- Search the match positions from the rightmost down (the greedy
dot-star backtracks from the longest prefix), taking the first position
where an alternative matches. -/
def scanMarkerDesc (s : Str) : List Nat → Option Str
  | [] => none
  | p :: rest =>
    match markerAltRem (s.drop p) with
    | some r => some r
    | none => scanMarkerDesc s rest

/-- The replace of dot-star followed by the marker alternation with the
empty string: everything up to and including the rightmost-starting
marker occurrence is removed; without a match the line is unchanged. -/
def removeUpToMarker (s : Str) : Str :=
  match scanMarkerDesc s ((List.range (s.length + 1)).reverse) with
  | some r => r
  | none => s

/-! ## The bill-block collection loops -/

/-- A collected bill block: identifier, title fragments, vote symbols,
outcome text, and the in-block marker position (minus one when absent). -/
structure BillBlock where
  billNumber : Str
  titleParts : List Str
  voteSymbols : List Vote
  result : Str
  speakerPosition : Int
deriving DecidableEq

/-- One line of the inner collection loop: none means the loop stops at
this line (the break cases: another bill number, a name-region header, a
vertical single-character run, a category caption); some carries the
accumulators for the next line (skip blanks; consume the presiding-marker
line specially; then vote symbols; then outcome text; then title
continuations). -/
def innerStepCore (nextLine nextLine2 : Str) (tp : List Str) (vs : List Vote)
    (res : Str) (sp : Int) : Option (List Str × List Vote × Str × Int) :=
  if nextLine = [] then some (tp, vs, res, sp)
  else if (findBill nextLine).isSome then none
  else if stopHeader nextLine then none
  else if singleKanji nextLine ∧ kanjiOrSpace1 nextLine2 then none
  else if categoryStop nextLine ∧ ¬ hasSub "議長のため".toList nextLine then none
  else if hasSub "議長".toList nextLine ∨
      (hasSub "議".toList nextLine ∧ nextLine2 = ['長']) then
    if extractVoteSymbols (nextLine.takeWhile (· ≠ '議')) ≠ [] then
      some (tp,
        vs ++ extractVoteSymbols (nextLine.takeWhile (· ≠ '議')) ++
          extractVoteSymbols (removeUpToMarker nextLine),
        if res ≠ [] then res else extractResult nextLine,
        (vs.length : Int) +
          (extractVoteSymbols (nextLine.takeWhile (· ≠ '議'))).length)
    else some (tp, vs, if res ≠ [] then res else extractResult nextLine, sp)
  else
    if extractVoteSymbols nextLine ≠ [] then
      some (tp, vs ++ extractVoteSymbols nextLine,
        if res ≠ [] then res else extractResult nextLine, sp)
    else
      if extractResult nextLine ≠ [] then some (tp, vs, extractResult nextLine, sp)
      else if (¬ voteSymStart nextLine ∧ ¬ titleStart3 nextLine ∧ tp ≠ []) ∨
          vs = [] then
        if nextLine.length > 1 ∧ ¬ allIdeo nextLine ∧ ¬ titleStart5 nextLine then
          some (tp ++ [nextLine], vs, res, sp)
        else some (tp, vs, res, sp)
      else some (tp, vs, res, sp)

/-- innerStepCore applied to the trimmed current and following lines. -/
def innerStep (lines : List Str) (i : Nat) (tp : List Str) (vs : List Vote)
    (res : Str) (sp : Int) : Option (List Str × List Vote × Str × Int) :=
  innerStepCore (jsTrim (lines.getD i [])) (jsTrim (lines.getD (i + 1) []))
    tp vs res sp

/-- The inner collection loop over the lines that follow a bill number,
driven by innerStep; returns the stopping index and the accumulated title
parts, symbols, outcome and marker position.  Structural recursion on a
fuel that bounds the remaining line count: the index rises by one per
step, so fuel equal to the remaining line count never runs out. -/
def innerLoopGo (lines : List Str) : Nat → Nat → List Str → List Vote →
    Str → Int → Nat × List Str × List Vote × Str × Int
  | 0, i, tp, vs, res, sp => (i, tp, vs, res, sp)
  | fuel + 1, i, tp, vs, res, sp =>
    if i < lines.length then
      match innerStep lines i tp vs res sp with
      | none => (i, tp, vs, res, sp)
      | some (tp', vs', res', sp') => innerLoopGo lines fuel (i + 1) tp' vs' res' sp'
    else (i, tp, vs, res, sp)

/-- The inner collection loop at full fuel. -/
def innerLoop (lines : List Str) (i : Nat) (tp : List Str) (vs : List Vote)
    (res : Str) (sp : Int) : Nat × List Str × List Vote × Str × Int :=
  innerLoopGo lines (lines.length - i) i tp vs res sp

/-- The seed title parts, symbols and outcome taken from the bill-number
line itself: the inline format extracts the title before the first symbol
and the outcome from the same line; the multi-line format keeps the
guarded title text. -/
def billLineSeed (afterBillNumber : Str) : List Str × List Vote × Str :=
  let voteSymbolsInLine := extractVoteSymbols afterBillNumber
  if voteSymbolsInLine ≠ [] then
    let tp0 :=
      match afterBillNumber.findIdx? voteClassChar with
      | some k =>
        if k > 0 then
          let titleText := jsTrim (afterBillNumber.take k)
          if titleText ≠ [] then [titleText] else []
        else []
      | none => []
    (tp0, voteSymbolsInLine, extractResult afterBillNumber)
  else
    let titleText := jsTrim afterBillNumber
    if titleText ≠ [] ∧ ¬ titleGuardStart titleText then ([titleText], [], [])
    else ([], [], [])

/-- One bill step at line i with match pm: seed from the bill line, then
run the inner collection loop from the next line. -/
def outerStep (lines : List Str) (i : Nat) (pm : Nat × Str) :
    Nat × List Str × List Vote × Str × Int :=
  let line := jsTrim (lines.getD i [])
  let afterBillNumber := line.drop (pm.1 + pm.2.length)
  let seed := billLineSeed afterBillNumber
  innerLoop lines (i + 1) seed.1 seed.2.1 seed.2.2 (-1)

/-- The outer scanning loop: find a bill-number line, run the bill step,
and keep the block when it collected at least one symbol.  Structural
recursion on a fuel bounding the remaining line count: the bill step ends
at or past the following line, so the index rises by at least one per
step and fuel equal to the remaining line count never runs out. -/
def outerLoopGo (lines : List Str) : Nat → Nat → List BillBlock
  | 0, _ => []
  | fuel + 1, i =>
    if i < lines.length then
      let line := jsTrim (lines.getD i [])
      match findBill line with
      | none => outerLoopGo lines fuel (i + 1)
      | some pm =>
        let r := outerStep lines i pm
        let rest := outerLoopGo lines fuel r.1
        if r.2.2.1 ≠ [] then
          { billNumber := pm.2, titleParts := r.2.1, voteSymbols := r.2.2.1,
            result := r.2.2.2.1, speakerPosition := r.2.2.2.2 } :: rest
        else rest
    else []

/-- The outer scanning loop at full fuel. -/
def outerLoop (lines : List Str) (i : Nat) : List BillBlock :=
  outerLoopGo lines (lines.length - i) i

/-! ## The speaker resolver over the vertical text -/

/-- The presiding marker phrase, one character per vertical line. -/
def speakerMarkerChars : Str := "議長のため採決に加わらず".toList

/-- Whether the marker phrase matches as a run of lines starting at line
i: each trimmed line equals, or contains, the corresponding character. -/
def markerMatchAt (lines : List Str) (i : Nat) : Bool :=
  (List.range speakerMarkerChars.length).all fun j =>
    let line := jsTrim (lines.getD (i + j) [])
    line = [speakerMarkerChars.getD j ' '] ||
    hasSub [speakerMarkerChars.getD j ' '] line

/-- Collect trimmed lines over the given indices while each is a single
ideograph or a lone ideographic space, stopping at the first other
line. -/
def collectKanjiLines (lines : List Str) : List Nat → List Str
  | [] => []
  | k :: rest =>
    let t := jsTrim (lines.getD k [])
    if singleKanji t ∨ t = [ideoSpace] then t :: collectKanjiLines lines rest
    else []

/-- The lookback indices above line i: i minus one down to at most twenty
lines back, never below zero. -/
def aboveIdxs (i : Nat) : List Nat :=
  (List.range' (i - min i 20) (min i 20)).reverse

/-- The candidate name characters above line i, in top-to-bottom order
(the walk prepends). -/
def nameCharsAbove (lines : List Str) (i : Nat) : List Str :=
  (collectKanjiLines lines (aboveIdxs i)).reverse

/-- The candidate name characters below a marker ending before line k:
up to twenty lines from k on. -/
def nameCharsBelowFrom (lines : List Str) (k : Nat) : List Str :=
  collectKanjiLines lines (List.range' k (min lines.length (k + 20) - k))

/-- parseSingleName: characters collected from vertical text, split at
the first lone ideographic-space entry into family and given parts; both
parts must be nonempty. -/
def parseSingleName (chars : List Str) : Option Str :=
  if chars.length < 2 then none
  else
    let filtered := chars.filter (· ≠ ([] : Str))
    if filtered.length < 2 then none
    else
      let st :=
        filtered.foldl
          (fun (acc : Str × Bool × Str) ch =>
            if ch = [ideoSpace] then
              if acc.1 ≠ [] ∧ ¬ acc.2.1 then (acc.1, true, acc.2.2) else acc
            else if acc.2.1 then (acc.1, acc.2.1, acc.2.2 ++ ch)
            else (acc.1 ++ ch, acc.2.1, acc.2.2))
          ([], false, [])
      if st.1 ≠ [] ∧ st.2.2 ≠ [] then some (st.1 ++ ideoSpace :: st.2.2)
      else none

/-- A parsed candidate accepted only when it is a decoded member. -/
def acceptCandidate (memberNames : List Str) (chars : List Str) : Option Str :=
  match parseSingleName chars with
  | some n => if n ∈ memberNames then some n else none
  | none => none

/-- The primary phase of the speaker resolver: at the first line where
the whole marker run matches, try the characters above and then below as
a candidate name; any failure abandons the phase (the source breaks out
of the scan). -/
def speakerPhase1 (lines : List Str) (memberNames : List Str) : Option Str :=
  match (List.range (lines.length - speakerMarkerChars.length)).find?
      (fun i => markerMatchAt lines i) with
  | none => none
  | some i =>
    let above := nameCharsAbove lines i
    let below := nameCharsBelowFrom lines (i + speakerMarkerChars.length)
    [above, below].findSome? (acceptCandidate memberNames)

/-- Collect up to six nonempty trimmed lines after line i (at most twenty
lines ahead), skipping blank and lone-ideographic-space lines; the walk
stops at the end of the lines. -/
def buildNextCharsGo (lines : List Str) (i : Nat) : List Nat → List Str →
    List Str
  | [], acc => acc
  | j :: rest, acc =>
    if i + j ≥ lines.length then acc
    else
      let t := jsTrim (lines.getD (i + j) [])
      if t = [ideoSpace] ∨ t = [] then buildNextCharsGo lines i rest acc
      else
        let acc' := acc ++ [t]
        if acc'.length ≥ 6 then acc' else buildNextCharsGo lines i rest acc'

/-- The index one past the first line after start whose trimmed content
is the closing marker character, or the line count when there is none. -/
def findZuEnd (lines : List Str) (start : Nat) : Nat :=
  match (List.range' start (lines.length - start)).find?
      (fun k => jsTrim (lines.getD k []) = ['ず']) with
  | some k => k + 1
  | none => lines.length

/-- The fallback phase of the speaker resolver: at every line that trims
to the single marker-head character and whose following nonempty lines
spell the marker continuation, try the name above, else the name below
the closing character, else keep scanning. -/
def speakerPhase2 (lines : List Str) (memberNames : List Str) :
    List Nat → Option Str
  | [] => none
  | i :: rest =>
    let trimmed := jsTrim (lines.getD i [])
    if trimmed = ['議'] then
      let nextChars := buildNextCharsGo lines i (List.range' 1 20) []
      if leadsWith "長のため採決".toList (joinStrs nextChars) then
        match acceptCandidate memberNames (nameCharsAbove lines i) with
        | some n => some n
        | none =>
          let markerEnd := findZuEnd lines (i + 1)
          match acceptCandidate memberNames (nameCharsBelowFrom lines markerEnd) with
          | some n => some n
          | none => speakerPhase2 lines memberNames rest
      else speakerPhase2 lines memberNames rest
    else speakerPhase2 lines memberNames rest

/-- findSpeakerFromVerticalText: the primary marker-run scan, then the
fallback head-character scan. -/
def findSpeakerFromVerticalText (text : Str) (memberNames : List Str) :
    Option Str :=
  let lines := splitOnNl text
  match speakerPhase1 lines memberNames with
  | some n => some n
  | none => speakerPhase2 lines memberNames (List.range lines.length)

/-! ## The assembler and parseVotingText -/

/-- The log messages the parser emits (the source writes them to the
console; the embedding returns them so the reporting behavior is part of
the function). -/
inductive LogMsg where
  | noMembers
  | foundMembers (n : Nat)
  | speakerFound (name : Str)
  | speakerUnknown (billNumber : Str) (count : Nat)
  | countMismatch (billNumber : Str) (got : Nat) (expected : Int)
deriving DecidableEq

/-- One member's vote entry. -/
structure VoteEntry where
  memberName : Str
  vote : Vote
deriving DecidableEq

/-- One bill's output record. -/
structure VoteRecord where
  billNumber : Str
  billTitle : Str
  result : Str
  votes : List VoteEntry
deriving DecidableEq

/-- The speaker-insertion walk of the assembler: the speaker gets the
presiding value without consuming a symbol; every other member consumes
the next symbol while any remain. -/
def insertSpeakerVotes (s : Str) : List Str → List Vote → List VoteEntry
  | [], _ => []
  | n :: ns, syms =>
    if n = s then ⟨n, Vote.gichou⟩ :: insertSpeakerVotes s ns syms
    else
      match syms with
      | [] => insertSpeakerVotes s ns []
      | v :: vsyms => ⟨n, v⟩ :: insertSpeakerVotes s ns vsyms

/-- The per-bill assembler: with a resolved speaker and one symbol short
of the member count, insert the presiding entry; with a full symbol
count, map one-to-one; with no resolved speaker and one symbol short,
map members in order truncated to the symbols and warn; otherwise drop
the bill with a count-mismatch warning.  A bill whose vote list comes out
empty is not emitted. -/
def assembleBlock (memberNames : List Str) (speaker : Option Str)
    (b : BillBlock) : Option VoteRecord × List LogMsg :=
  let expectedVotes : Int := (memberNames.length : Int) - 1
  let billTitle := removeWs (joinStrs b.titleParts)
  if hsp : ((b.voteSymbols.length : Int) = expectedVotes) ∧ speaker.isSome then
    let votes := insertSpeakerVotes (speaker.get hsp.2) memberNames b.voteSymbols
    (if votes ≠ [] then some ⟨b.billNumber, billTitle, b.result, votes⟩ else none,
     [])
  else if b.voteSymbols.length = memberNames.length then
    let votes := List.zipWith (fun n v => VoteEntry.mk n v) memberNames b.voteSymbols
    (if votes ≠ [] then some ⟨b.billNumber, billTitle, b.result, votes⟩ else none,
     [])
  else if ((b.voteSymbols.length : Int) = expectedVotes) ∧ speaker.isNone then
    let votes := List.zipWith (fun n v => VoteEntry.mk n v) memberNames b.voteSymbols
    (if votes ≠ [] then some ⟨b.billNumber, billTitle, b.result, votes⟩ else none,
     [LogMsg.speakerUnknown b.billNumber b.voteSymbols.length])
  else (none, [LogMsg.countMismatch b.billNumber b.voteSymbols.length expectedVotes])

/-- The speaker-index inference over the collected blocks.  The source
computes this value but never reads it afterwards (the assembler uses
only the name resolved from the vertical text); it is embedded for
completeness.  The JavaScript comparison against half the block count is
over rationals, written here cross-multiplied. -/
def inferSpeakerIndex (billBlocks : List BillBlock) (expectedVotes : Int) : Int :=
  match billBlocks.find? (fun b => b.speakerPosition ≥ 0) with
  | some b => b.speakerPosition
  | none =>
    let hasExpectedVotes :=
      (billBlocks.filter
        (fun b => (b.voteSymbols.length : Int) = expectedVotes)).length
    if 2 * hasExpectedVotes > billBlocks.length then -2 else -1

/-- The record-building walk over the collected blocks: each block's
assembled record (when any) and messages are appended in order. -/
def assembleFold (ms : List Str) (spk : Option Str) (blocks : List BillBlock)
    (acc : List VoteRecord × List LogMsg) : List VoteRecord × List LogMsg :=
  blocks.foldl
    (fun acc b =>
      let q := assembleBlock ms spk b
      (acc.1 ++ q.1.toList, acc.2 ++ q.2))
    acc

/-- parseVotingText: normalize digits, decode the member list (failing
the whole document when it is empty), collect bill blocks, resolve the
speaker from the original text, and assemble each block. -/
def parseVotingText (text : Str) : List VoteRecord × List LogMsg :=
  let normalizedText := toHalf text
  let lines := splitOnNl normalizedText
  let memberNames := extractMemberNames normalizedText
  if memberNames = [] then ([], [LogMsg.noMembers])
  else
    let billBlocks := outerLoop lines 0
    let speakerMemberName := findSpeakerFromVerticalText text memberNames
    let initMsgs :=
      LogMsg.foundMembers memberNames.length ::
        (match speakerMemberName with
         | some s => [LogMsg.speakerFound s]
         | none => [])
    assembleFold memberNames speakerMemberName billBlocks ([], initMsgs)

/-! ## The coordinate-based question-notice parser -/

/-- A text fragment with rounded page coordinates. -/
structure TextItem where
  text : Str
  x : Int
  y : Int
deriving DecidableEq

/-- The comparator of the fragment sort: descending y, then ascending x
(the JavaScript sort comparator b.y minus a.y, else a.x minus b.x). -/
def leYX (a b : TextItem) : Prop := b.y < a.y ∨ (a.y = b.y ∧ a.x ≤ b.x)

instance : DecidableRel leYX := fun a b => by
  unfold leYX; infer_instance

/-- The within-row comparator: ascending x. -/
def leX (a b : TextItem) : Prop := a.x ≤ b.x

instance : DecidableRel leX := fun a b => by
  unfold leX; infer_instance

instance : IsTotal TextItem leYX :=
  ⟨by intro a b; unfold leYX; omega⟩

instance : IsTrans TextItem leYX :=
  ⟨by intro a b c; unfold leYX; omega⟩

instance : IsTotal TextItem leX :=
  ⟨by intro a b; unfold leX; omega⟩

instance : IsTrans TextItem leX :=
  ⟨by intro a b c; unfold leX; omega⟩

/-- The stable sort by descending y then ascending x (JavaScript sort is
stable; a stable sort under a total preorder has one result, embedded
here as insertion sort). -/
def sortYX (l : List TextItem) : List TextItem := l.insertionSort leYX

/-- The stable sort by ascending x. -/
def sortX (l : List TextItem) : List TextItem := l.insertionSort leX

/-- The grouping walk of groupIntoRows: a fragment within five units of
the current row's reference y joins the row; otherwise the row is closed
(sorted by x) and the fragment opens a new row with its y as the
reference. -/
def groupGo (currentY : Int) (currentRow : List TextItem) :
    List TextItem → List (List TextItem)
  | [] => [sortX currentRow]
  | it :: rest =>
    if (it.y - currentY).natAbs ≤ 5 then groupGo currentY (currentRow ++ [it]) rest
    else sortX currentRow :: groupGo it.y [it] rest

/-- groupIntoRows: sort the fragments, then group by y proximity. -/
def groupIntoRows (items : List TextItem) : List (List TextItem) :=
  match sortYX items with
  | [] => []
  | s0 :: srest => groupGo s0.y [s0] srest

/-- The semantic column roles. -/
inductive ColumnType where
  | order
  | itemTitleCol
  | detailCol
  | respondentCol
deriving DecidableEq

/-- classifyColumn: the x-range table of the question-notice layout. -/
def classifyColumn (x : Int) : ColumnType :=
  if x < 75 then .order
  else if x < 190 then .itemTitleCol
  else if x < 480 then .detailCol
  else .respondentCol

/-- One reconstructed row, with the trimmed fragment texts concatenated
per column (the source concatenates with no separator). -/
structure ParsedRow where
  order : Str
  itemTitle : Str
  detail : Str
  respondent : Str
deriving DecidableEq

/-- parseRow: fold the row's fragments into the four column strings. -/
def parseRow (items : List TextItem) : ParsedRow :=
  items.foldl
    (fun row it =>
      let t := jsTrim it.text
      match classifyColumn it.x with
      | .order => { row with order := row.order ++ t }
      | .itemTitleCol => { row with itemTitle := row.itemTitle ++ t }
      | .detailCol => { row with detail := row.detail ++ t }
      | .respondentCol => { row with respondent := row.respondent ++ t })
    ⟨[], [], [], []⟩

/-- The anchored header pattern: the item-heading character, mandatory
whitespace, the name character, and nothing else. -/
def kenNameExact (t : Str) : Bool :=
  match t with
  | c :: rest =>
    c = '件' &&
    (let ws := rest.takeWhile isJsWs
     ws ≠ [] && rest.drop ws.length = ['名'])
  | [] => false

/-- isHeaderRow: blank rows and the fixed header and caption phrases. -/
def isHeaderRow (row : ParsedRow) : Bool :=
  let all := jsTrim (row.order ++ row.itemTitle ++ row.detail ++ row.respondent)
  if all = [] then true
  else if hasSub "一般質問通告一覧表".toList all then true
  else if hasSub "議員1人の持ち時間".toList all ∨
      hasSub "議員１人の持ち時間".toList all then true
  else if hasSub "質問・答弁は".toList all then true
  else if leadsWith "議席番号".toList row.itemTitle then true
  else if leadsWith "質問項目".toList row.detail then true
  else if kenNameExact (jsTrim row.itemTitle) then true
  else if all = "答弁を".toList ∨ all = "求める者".toList ∨ kenNameExact all ∨
      all = ['順'] ∨ all = ['序'] then true
  else false

/-- The member-name row pattern: digits, the seat character, optional
whitespace, then a nonempty name (the greedy whitespace backtracks one
character when the remainder is all whitespace, as the dot-plus group
must be nonempty). -/
def matchMemberName (s : Str) : Option (Str × Str) :=
  let ds := s.takeWhile isAsciiDigit
  if ds = [] then none
  else
    match s.drop ds.length with
    | '番' :: rest =>
      let afterWs := rest.dropWhile isJsWs
      if afterWs ≠ [] then some (ds, afterWs)
      else
        match rest.getLast? with
        | some c => some (ds, [c])
        | none => none
    | _ => none

/-- The numbered-fragment pattern: digits, optional whitespace, the rest
(possibly empty). -/
def matchNumRest (s : Str) : Option (Str × Str) :=
  let ds := s.takeWhile isAsciiDigit
  if ds = [] then none
  else some (ds, (s.drop ds.length).dropWhile isJsWs)

/-- One question item: a title and its ordered detail strings. -/
structure QuestionItem where
  title : Str
  details : List Str
deriving DecidableEq

/-- One member's question block in the output. -/
structure MemberQuestion where
  memberName : Str
  order : Nat
  items : List QuestionItem
deriving DecidableEq

/-- The member being assembled: closed items, plus the open item the
source mutates in place (held separately here; it rejoins items when the
next item opens or the member is finished). -/
structure CurMember where
  memberName : Str
  order : Nat
  items : List QuestionItem
  curItem : Option QuestionItem
deriving DecidableEq

/-- The assembly state: finished members, the member being assembled, and
the speaking-order counter. -/
structure QState where
  done : List MemberQuestion
  cur : Option CurMember
  orderCounter : Nat
deriving DecidableEq

/-- Open a new item: the previously open item is closed into the item
list and the new one becomes current (the source pushes the new object
and keeps mutating it). -/
def pushNewItem (cm : CurMember) (item : QuestionItem) : CurMember :=
  { cm with items := cm.items ++ cm.curItem.toList, curItem := some item }

/-- The item-title-column phase of one row: a numbered fragment with text
opens a new item; a bare number opens an empty item only when none is
open; an unnumbered fragment appends to the open item's title, or opens
an item when none is open. -/
def titlePhase (cm : CurMember) (t : Str) : CurMember :=
  if t = [] then cm
  else
    match matchNumRest t with
    | some pr =>
      if pr.2 ≠ [] then pushNewItem cm ⟨pr.2, []⟩
      else if cm.curItem = none then pushNewItem cm ⟨[], []⟩
      else cm
    | none =>
      match cm.curItem with
      | some ci => { cm with curItem := some { ci with title := ci.title ++ t } }
      | none => pushNewItem cm ⟨t, []⟩

/-- The detail-column phase of one row: a numbered fragment with text
appends a new detail string; an unnumbered fragment extends the last
detail string, or becomes the first one; with no open item the fragment
opens an unknown-title item. -/
def detailPhase (cm : CurMember) (d : Str) : CurMember :=
  if d = [] then cm
  else
    match cm.curItem with
    | some ci =>
      match matchNumRest d with
      | some pr =>
        if pr.2 ≠ [] then
          { cm with curItem := some { ci with details := ci.details ++ [pr.2] } }
        else cm
      | none =>
        if ci.details ≠ [] then
          let ds := ci.details.dropLast ++ [ci.details.getLastD [] ++ d]
          { cm with curItem := some { ci with details := ds } }
        else { cm with curItem := some { ci with details := [d] } }
    | none => pushNewItem cm ⟨"(不明)".toList, [d]⟩

/-- Close the member being assembled into an output record. -/
def flushCur : Option CurMember → List MemberQuestion
  | none => []
  | some cm => [⟨cm.memberName, cm.order, cm.items ++ cm.curItem.toList⟩]

/-- One classified row of the question assembly: header rows are
skipped; a member-name row with an empty detail column closes the
previous member and opens the next; otherwise the row's two content
columns run through the title and detail phases of the member being
assembled (rows before the first member row are dropped). -/
def processRowP (st : QState) (row : ParsedRow) : QState :=
  if isHeaderRow row then st
  else
    let t := toHalf (jsTrim row.itemTitle)
    let d := toHalf (jsTrim row.detail)
    match matchMemberName t, d with
    | some pr, [] =>
      { done := st.done ++ flushCur st.cur,
        cur := some ⟨removeWs pr.2, st.orderCounter + 1, [], none⟩,
        orderCounter := st.orderCounter + 1 }
    | _, _ =>
      match st.cur with
      | none => st
      | some cm => { st with cur := some (detailPhase (titlePhase cm t) d) }

/-- One raw row: reconstruct the columns, then process. -/
def processRow (st : QState) (rowItems : List TextItem) : QState :=
  processRowP st (parseRow rowItems)

/-- parsePdfWithCoordinates over the already-decoded page fragment lists
(the JSON decoding of each page string is the external library boundary;
a page that fails to decode is skipped by the source before this fold):
group each page into rows, fold the assembly over them, and close the
last member. -/
def parsePdfWithCoordinates (pages : List (List TextItem)) :
    List MemberQuestion :=
  let final :=
    pages.foldl (fun st page => (groupIntoRows page).foldl processRow st)
      ⟨[], none, 0⟩
  final.done ++ flushCur final.cur

/-! ## Specification-side definitions (for refinement claims) -/

/-- First-occurrence deduplication as the specification words it: keep
each element's first occurrence, removing every later repeat. -/
def removeLaterDups {α : Type} [DecidableEq α] : List α → List α
  | [] => []
  | x :: xs => x :: removeLaterDups (xs.filter (· ≠ x))
termination_by l => l.length
decreasing_by
  have := List.length_filter_le (fun x_1 => decide (x_1 ≠ x)) xs
  simp only [List.length_cons]
  omega

/-- The interior-segment family-length choice as the claim words it:
check for a known three-character family suffix (with a nonempty embedded
given part), else a known one-character family suffix, else a known
two-character family suffix, else default to two; if the chosen split
yields a given-name length outside one to four, retry family lengths two,
one, three in that order, accepting the first that yields a given-name
length of one to four. -/
def interiorFamilyLenSpec (seg : Str) : Int :=
  let chosen : Int :=
    if KNOWN_3CHAR_FAMILIES.any
        (fun fam => trailsWith fam seg && decide (seg.length > fam.length)) then 3
    else if KNOWN_1CHAR_FAMILIES.any
        (fun fam => trailsWith fam seg && decide (seg.length > fam.length)) then 1
    else if KNOWN_2CHAR_FAMILIES.any
        (fun fam => trailsWith fam seg && decide (seg.length > fam.length)) then 2
    else 2
  if (seg.length : Int) - chosen < 1 ∨ (seg.length : Int) - chosen > 4 then
    match ([2, 1, 3] : List Int).find?
        (fun fLen =>
          decide (1 ≤ (seg.length : Int) - fLen) &&
          decide ((seg.length : Int) - fLen ≤ 4)) with
    | some fLen => fLen
    | none => chosen
  else chosen

/-! ## Concrete fixtures for witnesses and counterexamples -/

/-- A minimal roll-call document: a name-block header, one vertical name,
and one inline bill line with one vote symbol. -/
def demoVotingText : Str :=
  "議員氏名\n飯\n島\n　\n英\n規\n議案第1号○原案可決".toList

/-- The record the demo document parses to. -/
def demoVotingRecord : VoteRecord :=
  ⟨"議案第1号".toList, [], "原案可決".toList,
   [⟨"飯島　英規".toList, Vote.sansei⟩]⟩

/-- A question page: a member row, a numbered item-title row with a
numbered detail, and an unnumbered continuation row in both columns. -/
def demoQuestionPage : List TextItem :=
  [⟨"1番　山田太郎".toList, 80, 100⟩,
   ⟨"1 地域医療".toList, 80, 80⟩,
   ⟨"1 病院の体制".toList, 200, 80⟩,
   ⟨"の充実について".toList, 80, 60⟩,
   ⟨"について".toList, 200, 60⟩]

/-- A question page whose second row is an unnumbered detail-column
fragment arriving before any item is open. -/
def cex7Page : List TextItem :=
  [⟨"1番　山田太郎".toList, 80, 100⟩,
   ⟨"未番号要旨".toList, 200, 80⟩]

/-- The assembly state after the member row of cex7Page: a current
member with no items. -/
def cex7State : QState :=
  ⟨[], some ⟨"山田太郎".toList, 1, [], none⟩, 1⟩

/-- The reconstructed second row of cex7Page. -/
def cex7Row : ParsedRow := ⟨[], [], "未番号要旨".toList, []⟩

/-- An assembly state with an open item holding a numbered title. -/
def demo7State : QState :=
  ⟨[], some ⟨"山田太郎".toList, 1, [], some ⟨"地域医療".toList, []⟩⟩, 1⟩

/-- An unnumbered title-continuation row. -/
def demo7Row : ParsedRow := ⟨[], "の充実について".toList, [], []⟩

/-! ## The separator-insertion relation and the repaired-occurrence
property -/

/-- The second sequence is the first with ideographic-space characters
inserted at arbitrary positions (the shape of one separator-repair
pass). -/
inductive SepInserted : Str → Str → Prop
  | nil : SepInserted [] []
  | cons (c : Char) (s t : Str) : SepInserted s t → SepInserted (c :: s) (c :: t)
  | ins (s t : Str) : SepInserted s t → SepInserted s (ideoSpace :: t)

/-- Every occurrence of the pattern in the sequence is immediately
followed by the ideographic-space separator, stated positionally over
drops. -/
def SepFollows (fam t : Str) : Prop :=
  ∀ k : Nat, leadsWith fam (t.drop k) = true →
    ∃ r, t.drop (k + fam.length) = ideoSpace :: r

/-! ## Theorems -/

/-- The symbol extractor emits only the four castable values, never the
presiding value. -/
theorem extractVoteSymbols_range :
    ∀ (s : Str) (v : Vote), v ∈ extractVoteSymbols s →
      v ≠ Vote.gichou ∧
      (v = Vote.sansei ∨ v = Vote.hantai ∨ v = Vote.kesseki ∨
        v = Vote.taiseki) := by
  intro s v hv
  simp only [extractVoteSymbols, List.mem_filterMap] at hv
  obtain ⟨c, _, hc⟩ := hv
  by_cases hcls : voteClassChar c = true
  · simp only [hcls, if_true] at hc
    cases hnv : normalizeVote [c] with
    | none => simp [hnv] at hc
    | some w =>
      simp only [hnv] at hc
      by_cases hg : w = Vote.gichou
      · simp [hg] at hc
      · rw [if_neg hg] at hc
        cases hc
        exact ⟨hg, by cases v <;> simp_all⟩
  · simp [hcls] at hc

/-- claim C9: for every input string, the vote-symbol extractor returns
only values in the castable set (approve, oppose, absent, left early);
it never emits the presiding value, so a presiding vote entry can enter
the output only through the assembler's explicit insertion for the
resolved speaker. -/
theorem claim9_extractVoteSymbols_range :
    ∀ (s : Str) (v : Vote), v ∈ extractVoteSymbols s →
      v ≠ Vote.gichou ∧
      (v = Vote.sansei ∨ v = Vote.hantai ∨ v = Vote.kesseki ∨
        v = Vote.taiseki) := by
  intro s v hv
  exact extractVoteSymbols_range s v hv

/-- Witness for claim C9 at a concrete symbol string. -/
theorem claim9_witness :
    Vote.sansei ≠ Vote.gichou ∧
      (Vote.sansei = Vote.sansei ∨ Vote.sansei = Vote.hantai ∨
        Vote.sansei = Vote.kesseki ∨ Vote.sansei = Vote.taiseki) :=
  claim9_extractVoteSymbols_range ("○×".toList) Vote.sansei (by decide)

/-- The deduplication loop equals first-occurrence deduplication of the
input restricted to unseen elements. -/
theorem dedupeGo_eq (l : List Str) :
    ∀ seen, dedupeGo seen l =
      removeLaterDups (l.filter (fun x => decide (x ∉ seen))) := by
  induction l with
  | nil =>
    intro seen
    rw [List.filter_nil, removeLaterDups]
    rfl
  | cons n rest ih =>
    intro seen
    by_cases hn : n ∈ seen
    · have hd : (decide (n ∉ seen)) = false := by simp [hn]
      simp only [dedupeGo, if_pos hn, List.filter_cons, hd, if_false,
        Bool.false_eq_true]
      exact ih seen
    · have hd : (decide (n ∉ seen)) = true := by simp [hn]
      simp only [dedupeGo, if_neg hn, List.filter_cons, hd, if_true]
      rw [removeLaterDups]
      congr 1
      rw [List.filter_filter, ih (n :: seen)]
      congr 1
      apply List.filter_congr
      intro a _
      by_cases h1 : a = n <;> by_cases h2 : a ∈ seen <;>
        simp [h1, h2, List.mem_cons]

/-- First-occurrence deduplication yields a sublist. -/
theorem removeLaterDups_sublist {α : Type} [DecidableEq α] :
    ∀ l : List α, (removeLaterDups l).Sublist l := by
  intro l
  induction l using removeLaterDups.induct with
  | case1 => rw [removeLaterDups]
  | case2 x xs ih =>
    rw [removeLaterDups]
    exact (ih.trans (List.filter_sublist xs)).cons₂ x

/-- First-occurrence deduplication yields no duplicates. -/
theorem removeLaterDups_nodup {α : Type} [DecidableEq α] :
    ∀ l : List α, (removeLaterDups l).Nodup := by
  intro l
  induction l using removeLaterDups.induct with
  | case1 => rw [removeLaterDups]; exact List.nodup_nil
  | case2 x xs ih =>
    rw [removeLaterDups]
    refine List.nodup_cons.mpr ⟨?_, ih⟩
    intro hmem
    have := (removeLaterDups_sublist (xs.filter (fun b => decide (b ≠ x)))).subset
      hmem
    simp at this

/-- claim C10: the decoded member-name list contains no duplicates: it is
the raw decoded name sequence with every repeated name removed, keeping
each name's first occurrence and preserving first-occurrence order. -/
theorem claim10_extractMemberNames_dedup :
    ∀ text : Str,
      extractMemberNames text =
        removeLaterDups (splitNamesFromSequence (extractNameCharSequence text)) ∧
      (extractMemberNames text).Nodup := by
  intro text
  unfold extractMemberNames
  by_cases h : extractNameCharSequence text = []
  · rw [if_pos h, h]
    refine ⟨?_, List.nodup_nil⟩
    rw [show splitNamesFromSequence ([] : Str) = [] from rfl, removeLaterDups]
  · rw [if_neg h]
    have he := dedupeGo_eq (splitNamesFromSequence (extractNameCharSequence text)) []
    have hf :
        (splitNamesFromSequence (extractNameCharSequence text)).filter
            (fun x => decide (x ∉ ([] : List Str))) =
          splitNamesFromSequence (extractNameCharSequence text) := by
      apply List.filter_eq_self.mpr
      intro a _
      simp
    rw [he, hf]
    exact ⟨rfl, removeLaterDups_nodup _⟩

/-- claim C5: an input whose cleaned name character sequence splits into
fewer than two separator-delimited segments decodes to zero members, and
the whole document then yields zero output vote records, with the failure
reported. -/
theorem claim5_few_segments_no_output :
    ∀ text : Str,
      (splitSegs (fixSeps (extractNameCharSequence (toHalf text)))).length < 2 →
      extractMemberNames (toHalf text) = [] ∧
      parseVotingText text = ([], [LogMsg.noMembers]) := by
  intro text h
  have hm : extractMemberNames (toHalf text) = [] := by
    unfold extractMemberNames
    by_cases hc : extractNameCharSequence (toHalf text) = []
    · rw [if_pos hc]
    · rw [if_neg hc]
      unfold splitNamesFromSequence
      rw [if_pos h]
      rfl
  refine ⟨hm, ?_⟩
  simp [parseVotingText, hm]

/-- Witness for claim C5 at a document holding only the header line. -/
theorem claim5_witness :
    extractMemberNames (toHalf "議員氏名".toList) = [] ∧
      parseVotingText "議員氏名".toList = ([], [LogMsg.noMembers]) :=
  claim5_few_segments_no_output "議員氏名".toList (by decide)

/-- The length of the speaker-insertion walk: one entry per occurrence of
the speaker, plus one per consumed symbol. -/
theorem insertSpeakerVotes_length (s : Str) :
    ∀ (ms : List Str) (syms : List Vote),
      (insertSpeakerVotes s ms syms).length =
        ms.count s + min (ms.length - ms.count s) syms.length := by
  intro ms
  induction ms with
  | nil => intro syms; simp [insertSpeakerVotes]
  | cons n ns ih =>
    intro syms
    have hk := List.count_le_length s ns
    by_cases hn : n = s
    · subst hn
      have hcnt : (n :: ns).count n = ns.count n + 1 := by
        simp [List.count_cons]
      simp [insertSpeakerVotes, ih, hcnt]
      omega
    · have hcnt : (n :: ns).count s = ns.count s := by
        simp [List.count_cons, hn]
      cases syms with
      | nil =>
        simp only [insertSpeakerVotes, if_neg hn, ih, hcnt, List.length_cons,
          List.length_nil]
        omega
      | cons v vs =>
        simp only [insertSpeakerVotes, if_neg hn, List.length_cons, ih, hcnt]
        omega

/-- A vote entry of the one-to-one zip carries one of the zipped
symbols. -/
theorem vote_mem_of_mem_zipWith :
    ∀ (ms : List Str) (syms : List Vote) (e : VoteEntry),
      e ∈ List.zipWith (fun n v => VoteEntry.mk n v) ms syms →
      e.vote ∈ syms := by
  intro ms
  induction ms with
  | nil => intro syms e h; simp [List.zipWith] at h
  | cons n ns ih =>
    intro syms e h
    cases syms with
    | nil => simp [List.zipWith] at h
    | cons v vs =>
      rcases List.mem_cons.mp h with h1 | h1
      · subst h1; exact List.mem_cons_self v vs
      · exact List.mem_cons_of_mem v (ih vs e h1)

/-- Any record the assembler emits has the full member count of entries,
or one fewer. -/
theorem assembleBlock_some_length (ms : List Str) (speaker : Option Str)
    (b : BillBlock) (r : VoteRecord)
    (h : (assembleBlock ms speaker b).1 = some r) :
    r.votes.length = ms.length ∨ r.votes.length + 1 = ms.length := by
  simp only [assembleBlock] at h
  split at h
  case isTrue hsp =>
    have hlen : b.voteSymbols.length + 1 = ms.length := by
      have h1 := hsp.1
      omega
    split at h
    case isTrue hne =>
      simp only at h
      cases h
      rw [insertSpeakerVotes_length]
      have hk := List.count_le_length (speaker.get hsp.2) ms
      omega
    case isFalse => simp at h
  case isFalse =>
    split at h
    case isTrue hfull =>
      split at h
      case isTrue =>
        simp only at h
        cases h
        left
        rw [List.length_zipWith]
        omega
      case isFalse => simp at h
    case isFalse =>
      split at h
      case isTrue htrunc =>
        have hlen : b.voteSymbols.length + 1 = ms.length := by
          have h1 := htrunc.1
          omega
        split at h
        case isTrue =>
          simp only at h
          cases h
          right
          rw [List.length_zipWith]
          omega
        case isFalse => simp at h
      case isFalse => simp at h

/-- A record in the fold's output was in the accumulator or comes from
the assembler on one of the blocks. -/
theorem mem_assembleFold (ms : List Str) (spk : Option Str) :
    ∀ (blocks : List BillBlock) (acc : List VoteRecord × List LogMsg)
      (r : VoteRecord),
      r ∈ (assembleFold ms spk blocks acc).1 →
      r ∈ acc.1 ∨ ∃ b ∈ blocks, (assembleBlock ms spk b).1 = some r := by
  intro blocks
  induction blocks with
  | nil => intro acc r h; exact Or.inl h
  | cons b bs ih =>
    intro acc r h
    rcases ih _ r h with h1 | ⟨b', hb', he⟩
    · rcases List.mem_append.mp h1 with h2 | h2
      · exact Or.inl h2
      · refine Or.inr ⟨b, List.mem_cons_self b bs, ?_⟩
        rcases hq : (assembleBlock ms spk b).1 with _ | q
        · rw [hq] at h2; simp [Option.toList] at h2
        · rw [hq] at h2
          simp only [Option.toList, List.mem_singleton] at h2
          rw [h2]
    · exact Or.inr ⟨b', List.mem_cons_of_mem b hb', he⟩

/-- claim C1: every Bill record parseVotingText emits has a votes list
whose length equals the decoded member count or the decoded member count
minus one; a bill block whose vote-symbol count matches neither value is
omitted from the output entirely, never emitted as a partial record. -/
theorem claim1_record_votes_length :
    (∀ (text : Str) (r : VoteRecord), r ∈ (parseVotingText text).1 →
        r.votes.length = (extractMemberNames (toHalf text)).length ∨
        r.votes.length + 1 = (extractMemberNames (toHalf text)).length) ∧
    (∀ (memberNames : List Str) (speaker : Option Str) (b : BillBlock),
        (b.voteSymbols.length : Int) ≠ (memberNames.length : Int) - 1 →
        b.voteSymbols.length ≠ memberNames.length →
        (assembleBlock memberNames speaker b).1 = none) := by
  constructor
  · intro text r h
    by_cases hm : extractMemberNames (toHalf text) = []
    · simp [parseVotingText, hm] at h
    · rw [show (parseVotingText text).1 =
          (assembleFold (extractMemberNames (toHalf text))
            (findSpeakerFromVerticalText text (extractMemberNames (toHalf text)))
            (outerLoop (splitOnNl (toHalf text)) 0)
            ([], LogMsg.foundMembers (extractMemberNames (toHalf text)).length ::
              (match findSpeakerFromVerticalText text
                  (extractMemberNames (toHalf text)) with
               | some s => [LogMsg.speakerFound s]
               | none => []))).1 by
            simp [parseVotingText, hm]] at h
      rcases mem_assembleFold _ _ _ _ r h with h1 | ⟨b, _, he⟩
      · simp at h1
      · exact assembleBlock_some_length _ _ _ _ he
  · intro memberNames speaker b h1 h2
    unfold assembleBlock
    rw [dif_neg (by rintro ⟨ha, _⟩; exact h1 ha)]
    rw [if_neg h2]
    rw [if_neg (by rintro ⟨ha, _⟩; exact h1 ha)]

/-- Witness for claim C1: the demo document's one record, and a block
with three symbols against one member. -/
theorem claim1_witness :
    (demoVotingRecord.votes.length =
        (extractMemberNames (toHalf demoVotingText)).length ∨
      demoVotingRecord.votes.length + 1 =
        (extractMemberNames (toHalf demoVotingText)).length) ∧
    (assembleBlock ["甲".toList] none
        ⟨"議案第9号".toList, [], [Vote.sansei, Vote.hantai, Vote.taiseki],
          [], -1⟩).1 = none :=
  ⟨claim1_record_votes_length.1 demoVotingText demoVotingRecord (by decide),
   claim1_record_votes_length.2 ["甲".toList] none _ (by decide) (by decide)⟩

/-- claim C3: with no resolved speaker and a vote-symbol count of one
less than the member count, the assembler emits entries only for the
decoded members in document order truncated to the observed count, warns
that the speaker is unknown for that bill, and assigns no presiding
entry. -/
theorem claim3_speaker_unresolved :
    ∀ (memberNames : List Str) (b : BillBlock),
      b.voteSymbols ≠ [] →
      (b.voteSymbols.length : Int) = (memberNames.length : Int) - 1 →
      (∀ v ∈ b.voteSymbols, v ≠ Vote.gichou) →
      ∃ r, assembleBlock memberNames none b =
          (some r, [LogMsg.speakerUnknown b.billNumber b.voteSymbols.length]) ∧
        r.votes =
          List.zipWith (fun n v => VoteEntry.mk n v) memberNames b.voteSymbols ∧
        r.votes.length = b.voteSymbols.length ∧
        ∀ e ∈ r.votes, e.vote ≠ Vote.gichou := by
  intro memberNames b hvs hlen hng
  have hN : b.voteSymbols.length + 1 = memberNames.length := by omega
  have hvslen : 1 ≤ b.voteSymbols.length := by
    cases hb : b.voteSymbols with
    | nil => exact absurd hb hvs
    | cons v vs => simp [hb]
  refine ⟨⟨b.billNumber, removeWs (joinStrs b.titleParts), b.result,
    List.zipWith (fun n v => VoteEntry.mk n v) memberNames b.voteSymbols⟩, ?_, rfl,
    ?_, ?_⟩
  · have hzw : List.zipWith (fun n v => VoteEntry.mk n v) memberNames
        b.voteSymbols ≠ [] := by
      obtain ⟨m0, ms', hm⟩ : ∃ m0 ms', memberNames = m0 :: ms' := by
        cases memberNames with
        | nil => exact absurd hN (by simp)
        | cons a l => exact ⟨a, l, rfl⟩
      obtain ⟨v0, vs', hv⟩ : ∃ v0 vs', b.voteSymbols = v0 :: vs' := by
        cases hb : b.voteSymbols with
        | nil => exact absurd hb hvs
        | cons a l => exact ⟨a, l, rfl⟩
      rw [hm, hv]
      simp [List.zipWith]
    simp only [assembleBlock]
    rw [dif_neg (by rintro ⟨_, hs⟩; simp at hs)]
    rw [if_neg (by omega : ¬ b.voteSymbols.length = memberNames.length)]
    simp [hlen, hzw]
  · rw [List.length_zipWith]; omega
  · intro e he
    exact hng e.vote (vote_mem_of_mem_zipWith _ _ _ he)

/-- Witness for claim C3 at two members and one symbol. -/
theorem claim3_witness :
    ∃ r, assembleBlock ["甲".toList, "乙".toList] none
        ⟨"議案第1号".toList, [], [Vote.sansei], [], -1⟩ =
        (some r, [LogMsg.speakerUnknown "議案第1号".toList 1]) ∧
      r.votes = List.zipWith (fun n v => VoteEntry.mk n v)
        ["甲".toList, "乙".toList] [Vote.sansei] ∧
      r.votes.length = 1 ∧
      ∀ e ∈ r.votes, e.vote ≠ Vote.gichou := by
  have h := claim3_speaker_unresolved ["甲".toList, "乙".toList]
    ⟨"議案第1号".toList, [], [Vote.sansei], [], -1⟩
    (by decide) (by decide) (by decide)
  exact h

/-- The prefix test agrees with the prefix relation. -/
theorem leadsWith_iff : ∀ (p s : Str), leadsWith p s = true ↔ p <+: s := by
  intro p
  induction p with
  | nil => intro s; simp [leadsWith, List.nil_prefix]
  | cons a ps ih =>
    intro s
    cases s with
    | nil => simp [leadsWith]
    | cons c cs =>
      simp only [leadsWith, Bool.and_eq_true, decide_eq_true_eq,
        List.cons_prefix_cons, ih]

/-- The suffix test agrees with the suffix relation. -/
theorem trailsWith_iff (pat s : Str) : trailsWith pat s = true ↔ pat <:+ s := by
  unfold trailsWith
  rw [leadsWith_iff, List.reverse_prefix]

/-- Slicing the last two characters is dropping all but two. -/
theorem jsSliceFrom_neg2 (seg : Str) (h : 2 ≤ seg.length) :
    jsSliceFrom seg (-2) = seg.drop (seg.length - 2) := by
  simp only [jsSliceFrom]
  rw [if_pos (by norm_num : (-2 : Int) < 0)]
  congr 1
  omega

/-- The source's last-two-characters dictionary test is exactly the
known-two-character-family-suffix test of the specification. -/
theorem twoCharCond_eq (seg : Str) :
    (decide (seg.length ≥ 3) &&
        decide (jsSliceFrom seg (-2) ∈ KNOWN_2CHAR_FAMILIES)) =
      KNOWN_2CHAR_FAMILIES.any
        (fun fam => trailsWith fam seg && decide (seg.length > fam.length)) := by
  have hK2 : ∀ fam ∈ KNOWN_2CHAR_FAMILIES, fam.length = 2 := by decide
  rw [Bool.eq_iff_iff]
  simp only [Bool.and_eq_true, decide_eq_true_eq, List.any_eq_true]
  constructor
  · rintro ⟨h3, hmem⟩
    refine ⟨jsSliceFrom seg (-2), hmem, ?_⟩
    have hslice : jsSliceFrom seg (-2) = seg.drop (seg.length - 2) :=
      jsSliceFrom_neg2 seg (by omega)
    constructor
    · rw [trailsWith_iff, hslice]
      exact List.drop_suffix _ _
    · rw [hK2 _ hmem]
      omega
  · rintro ⟨fam, hfam, hsuf, hlt⟩
    have hl2 : fam.length = 2 := hK2 _ hfam
    refine ⟨by omega, ?_⟩
    rw [trailsWith_iff] at hsuf
    have hdrop := List.suffix_iff_eq_drop.mp hsuf
    rw [hl2] at hdrop
    rw [jsSliceFrom_neg2 seg (by omega), ← hdrop]
    exact hfam

/-- The retry search ignores the source's always-true bounds on the
candidate family lengths two, one and three. -/
theorem find_alt_eq (L : Int) :
    ([2, 1, 3] : List Int).find?
        (fun fLen =>
          decide (1 ≤ L - fLen) && decide (L - fLen ≤ 4) && decide (1 ≤ fLen) &&
          decide (fLen ≤ 4)) =
      ([2, 1, 3] : List Int).find?
        (fun fLen => decide (1 ≤ L - fLen) && decide (L - fLen ≤ 4)) := by
  cases h1 : decide (1 ≤ L - 2) <;> cases h2 : decide (L - 2 ≤ 4) <;>
    cases h3 : decide (1 ≤ L - 1) <;> cases h4 : decide (L - 1 ≤ 4) <;>
      cases h5 : decide (1 ≤ L - 3) <;> cases h6 : decide (L - 3 ≤ 4) <;>
        simp [List.find?, h1, h2, h3, h4, h5, h6]

/-- claim C4: the interior-segment family-length choice of the name
decoder follows the claimed order: a known three-character family suffix,
else a known one-character family suffix, else a known two-character
family suffix, else the default two; and when the chosen split yields a
given-name length outside one to four, family lengths two, one, three are
retried in that order, accepting the first that yields a given-name
length of one to four. -/
theorem claim4_interior_family_length :
    ∀ seg : Str,
      interiorFamilyLen seg = interiorFamilyLenSpec seg ∧
      (decide (seg.length ≥ 3) &&
          decide (jsSliceFrom seg (-2) ∈ KNOWN_2CHAR_FAMILIES)) =
        KNOWN_2CHAR_FAMILIES.any
          (fun fam => trailsWith fam seg && decide (seg.length > fam.length)) := by
  intro seg
  refine ⟨?_, twoCharCond_eq seg⟩
  simp only [interiorFamilyLen, interiorFamilyLenSpec, ite_self]
  rw [find_alt_eq]

/-- The grouping walk only regroups: its rows flatten to a permutation
of the current row followed by the remaining fragments. -/
theorem groupGo_flatten_perm :
    ∀ (rest : List TextItem) (curY : Int) (curRow : List TextItem),
      (groupGo curY curRow rest).flatten.Perm (curRow ++ rest) := by
  intro rest
  induction rest with
  | nil =>
    intro curY curRow
    simpa [groupGo, sortX] using List.perm_insertionSort leX curRow
  | cons it rs ih =>
    intro curY curRow
    by_cases h : (it.y - curY).natAbs ≤ 5
    · rw [groupGo, if_pos h]
      refine (ih curY (curRow ++ [it])).trans ?_
      rw [List.append_assoc]
      exact List.Perm.refl _
    · rw [groupGo, if_neg h]
      rw [List.flatten_cons]
      exact (List.Perm.append (List.perm_insertionSort leX curRow)
        (ih it.y [it])).trans (List.Perm.refl _)

/-- The grouping walk's row properties: every row is nonempty, sorted by
ascending x, spans at most five y units, and later rows lie strictly
below earlier ones. -/
theorem groupGo_rows_props :
    ∀ (rest : List TextItem) (curY : Int) (curRow : List TextItem),
      curRow ≠ [] →
      (∀ a ∈ curRow, curY - 5 ≤ a.y ∧ a.y ≤ curY) →
      (∀ b ∈ rest, b.y ≤ curY) →
      List.Pairwise (fun a b => b.y ≤ a.y) rest →
      (∀ r ∈ groupGo curY curRow rest, r ≠ []) ∧
      (∀ r ∈ groupGo curY curRow rest, List.Sorted leX r) ∧
      (∀ r ∈ groupGo curY curRow rest, ∀ a ∈ r, ∀ b ∈ r,
        (a.y - b.y).natAbs ≤ 5) ∧
      List.Pairwise (fun r s => ∀ a ∈ r, ∀ b ∈ s, b.y < a.y)
        (groupGo curY curRow rest) := by
  intro rest
  induction rest with
  | nil =>
    intro curY curRow hne hbound _ _
    have hperm : (sortX curRow).Perm curRow := List.perm_insertionSort leX curRow
    refine ⟨?_, ?_, ?_, ?_⟩
    · intro r hr
      rw [groupGo, List.mem_singleton] at hr
      subst hr
      intro hnil
      have hlen := hperm.length_eq
      rw [hnil] at hlen
      exact hne (List.length_eq_zero.mp hlen.symm)
    · intro r hr
      rw [groupGo, List.mem_singleton] at hr
      subst hr
      exact List.sorted_insertionSort leX curRow
    · intro r hr a ha b hb
      rw [groupGo, List.mem_singleton] at hr
      subst hr
      have ha' := hbound a (hperm.subset ha)
      have hb' := hbound b (hperm.subset hb)
      omega
    · rw [groupGo]
      exact List.pairwise_singleton _ _
  | cons it rs ih =>
    intro curY curRow hne hbound hrest hpw
    have hity : it.y ≤ curY := hrest it (List.mem_cons_self it rs)
    have hrs : ∀ b ∈ rs, b.y ≤ it.y := fun b hb =>
      (List.pairwise_cons.mp hpw).1 b hb
    have hpw' : List.Pairwise (fun a b => b.y ≤ a.y) rs :=
      (List.pairwise_cons.mp hpw).2
    by_cases h : (it.y - curY).natAbs ≤ 5
    · rw [groupGo, if_pos h]
      refine ih curY (curRow ++ [it]) (by simp) ?_ ?_ hpw'
      · intro a ha
        rcases List.mem_append.mp ha with h1 | h1
        · exact hbound a h1
        · rw [List.mem_singleton] at h1
          subst h1
          omega
      · intro b hb
        exact le_trans (hrs b hb) hity
    · rw [groupGo, if_neg h]
      have hlow : it.y < curY - 5 := by omega
      have hperm : (sortX curRow).Perm curRow := List.perm_insertionSort leX curRow
      obtain ⟨tne, tsort, ttol, tpw⟩ :=
        ih it.y [it] (by simp)
          (by intro a ha; rw [List.mem_singleton] at ha; subst ha; omega)
          hrs hpw'
      refine ⟨?_, ?_, ?_, ?_⟩
      · intro r hr
        rcases List.mem_cons.mp hr with h1 | h1
        · subst h1
          intro hnil
          have hlen := hperm.length_eq
          rw [hnil] at hlen
          exact hne (List.length_eq_zero.mp hlen.symm)
        · exact tne r h1
      · intro r hr
        rcases List.mem_cons.mp hr with h1 | h1
        · subst h1
          exact List.sorted_insertionSort leX curRow
        · exact tsort r h1
      · intro r hr a ha b hb
        rcases List.mem_cons.mp hr with h1 | h1
        · subst h1
          have ha' := hbound a (hperm.subset ha)
          have hb' := hbound b (hperm.subset hb)
          omega
        · exact ttol r h1 a ha b hb
      · refine List.pairwise_cons.mpr ⟨?_, tpw⟩
        intro s hs a ha b hb
        have hbmem : b ∈ (groupGo it.y [it] rs).flatten :=
          List.mem_flatten.mpr ⟨s, hs, hb⟩
        have hb' : b ∈ it :: rs :=
          (groupGo_flatten_perm rs it.y [it]).subset hbmem
        have hby : b.y ≤ it.y := by
          rcases List.mem_cons.mp hb' with h1 | h1
          · rw [h1]
          · exact hrs b h1
        have ha' := hbound a (hperm.subset ha)
        omega

/-- claim C6: for every nonempty fragment list, the layout reconstructor
returns nonempty rows that partition the fragments, each row sorted left
to right, each row spanning at most the five-unit y tolerance, and rows
ordered strictly top to bottom. -/
theorem claim6_groupIntoRows :
    ∀ items : List TextItem, items ≠ [] →
      groupIntoRows items ≠ [] ∧
      (groupIntoRows items).flatten.Perm items ∧
      (∀ r ∈ groupIntoRows items, r ≠ [] ∧ List.Sorted leX r ∧
        ∀ a ∈ r, ∀ b ∈ r, (a.y - b.y).natAbs ≤ 5) ∧
      List.Pairwise (fun r s => ∀ a ∈ r, ∀ b ∈ s, b.y < a.y)
        (groupIntoRows items) := by
  intro items hne
  have hperm : (sortYX items).Perm items := List.perm_insertionSort leYX items
  have hsorted : List.Sorted leYX (sortYX items) :=
    List.sorted_insertionSort leYX items
  cases hs : sortYX items with
  | nil =>
    have hlen := hperm.length_eq
    rw [hs] at hlen
    simp only [List.length_nil] at hlen
    exact absurd (List.length_eq_zero.mp hlen.symm) hne
  | cons s0 srest =>
    rw [hs] at hperm hsorted
    have hdesc : List.Pairwise (fun a b => b.y ≤ a.y) (s0 :: srest) :=
      hsorted.imp (fun hab => by unfold leYX at hab; omega)
    have hd0 : ∀ b ∈ srest, b.y ≤ s0.y :=
      fun b hb => (List.pairwise_cons.mp hdesc).1 b hb
    have hdt : List.Pairwise (fun a b => b.y ≤ a.y) srest :=
      (List.pairwise_cons.mp hdesc).2
    obtain ⟨tne, tsort, ttol, tpw⟩ :=
      groupGo_rows_props srest s0.y [s0] (by simp)
        (by intro a ha; rw [List.mem_singleton] at ha; subst ha; omega)
        hd0 hdt
    have hflat : (groupGo s0.y [s0] srest).flatten.Perm items :=
      (groupGo_flatten_perm srest s0.y [s0]).trans hperm
    have hrows : groupIntoRows items = groupGo s0.y [s0] srest := by
      rw [groupIntoRows, hs]
    rw [hrows]
    refine ⟨?_, hflat, ?_, tpw⟩
    · intro hnil
      have hlen := hflat.length_eq
      rw [hnil] at hlen
      simp only [List.flatten_nil, List.length_nil] at hlen
      exact hne (List.length_eq_zero.mp hlen.symm)
    · intro r hr
      exact ⟨tne r hr, tsort r hr, ttol r hr⟩

/-- Witness for claim C6 at the demo question page. -/
theorem claim6_witness :
    groupIntoRows demoQuestionPage ≠ [] ∧
      (groupIntoRows demoQuestionPage).flatten.Perm demoQuestionPage ∧
      (∀ r ∈ groupIntoRows demoQuestionPage, r ≠ [] ∧ List.Sorted leX r ∧
        ∀ a ∈ r, ∀ b ∈ r, (a.y - b.y).natAbs ≤ 5) ∧
      List.Pairwise (fun r s => ∀ a ∈ r, ∀ b ∈ s, b.y < a.y)
        (groupIntoRows demoQuestionPage) :=
  claim6_groupIntoRows demoQuestionPage (by decide)

/-- A fragment with no leading digit is not a member-name row. -/
theorem matchMemberName_none_of_no_digit (t : Str)
    (h : matchNumRest t = none) : matchMemberName t = none := by
  unfold matchNumRest at h
  unfold matchMemberName
  by_cases hds : t.takeWhile isAsciiDigit = []
  · rw [if_pos hds]
  · rw [if_neg hds] at h
    cases h

/-- The title phase on an unnumbered fragment with an open item appends
to the open item's title. -/
theorem titlePhase_unnumbered (cm : CurMember) (ci : QuestionItem) (t : Str)
    (hci : cm.curItem = some ci) (ht : t ≠ [])
    (hnum : matchNumRest t = none) :
    titlePhase cm t =
      { cm with curItem := some { ci with title := ci.title ++ t } } := by
  unfold titlePhase
  rw [if_neg ht, hnum, hci]

/-- The detail phase on an unnumbered fragment with an open item holding
at least one detail appends to the last detail string. -/
theorem detailPhase_unnumbered (cm : CurMember) (ci : QuestionItem) (d : Str)
    (hci : cm.curItem = some ci) (hd : d ≠ []) (hds : ci.details ≠ [])
    (hnum : matchNumRest d = none) :
    detailPhase cm d =
      { cm with curItem := some { ci with details :=
          ci.details.dropLast ++ [ci.details.getLastD [] ++ d] } } := by
  unfold detailPhase
  rw [if_neg hd, hci]
  simp only [hnum]
  rw [if_pos hds]

/-- The title phase on an unnumbered fragment with no open item opens a
fresh item carrying the fragment as its title. -/
theorem titlePhase_noitem (cm : CurMember) (t : Str)
    (hci : cm.curItem = none) (ht : t ≠ [])
    (hnum : matchNumRest t = none) :
    titlePhase cm t = ⟨cm.memberName, cm.order, cm.items, some ⟨t, []⟩⟩ := by
  unfold titlePhase
  rw [if_neg ht, hnum, hci]
  unfold pushNewItem
  rw [hci]
  simp

/-- The detail phase on a nonempty fragment with no open item opens an
unknown-title item holding the fragment as its only detail. -/
theorem detailPhase_noitem (cm : CurMember) (d : Str)
    (hci : cm.curItem = none) (hd : d ≠ []) :
    detailPhase cm d =
      ⟨cm.memberName, cm.order, cm.items,
        some ⟨"(不明)".toList, [d]⟩⟩ := by
  unfold detailPhase
  rw [if_neg hd, hci]
  unfold pushNewItem
  rw [hci]
  simp

/-- The title phase never touches the closed items and keeps an item
open, when one is open and the fragment is unnumbered. -/
theorem titlePhase_frame (cm : CurMember) (ci : QuestionItem) (t : Str)
    (hci : cm.curItem = some ci) (hnum : matchNumRest t = none) :
    (titlePhase cm t).items = cm.items ∧
    (titlePhase cm t).curItem.isSome ∧
    (titlePhase cm t).memberName = cm.memberName ∧
    (titlePhase cm t).order = cm.order := by
  unfold titlePhase
  by_cases ht : t = []
  · rw [if_pos ht]
    simp [hci]
  · rw [if_neg ht, hnum, hci]
    simp

/-- The detail phase never touches the closed items and keeps an item
open, when one is open and the fragment is unnumbered. -/
theorem detailPhase_frame (cm : CurMember) (ci : QuestionItem) (d : Str)
    (hci : cm.curItem = some ci) (hnum : matchNumRest d = none) :
    (detailPhase cm d).items = cm.items ∧
    (detailPhase cm d).curItem.isSome ∧
    (detailPhase cm d).memberName = cm.memberName ∧
    (detailPhase cm d).order = cm.order := by
  unfold detailPhase
  by_cases hd : d = []
  · rw [if_pos hd]
    simp [hci]
  · rw [if_neg hd, hci]
    simp only [hnum]
    by_cases hds : ci.details ≠ []
    · rw [if_pos hds]
      simp
    · rw [if_neg hds]
      simp

/-- Counterexample for claim C7: on a page whose member row is followed
by an unnumbered detail-column fragment, with no item open, the
assembler creates a new question item (titled with the unknown-title
placeholder) from that unlabeled fragment. -/
theorem claim7_counterexample :
    matchNumRest (toHalf (jsTrim cex7Row.detail)) = none ∧
    (processRowP cex7State cex7Row).cur =
      some ⟨"山田太郎".toList, 1, [],
        some ⟨"(不明)".toList, ["未番号要旨".toList]⟩⟩ ∧
    parsePdfWithCoordinates [cex7Page] =
      [⟨"山田太郎".toList, 1,
        [⟨"(不明)".toList, ["未番号要旨".toList]⟩]⟩] := by
  refine ⟨by decide, by decide, by decide⟩

/-- claim C7 (amended): with a question item open, an unnumbered
item-title fragment appends to the open item's title with no inserted
separator, an unnumbered detail fragment appends to the last detail
string when one exists, and unlabeled fragments never open a new item nor
touch the closed items; when no item is open yet, an unnumbered
item-title fragment instead becomes the title of a fresh current item,
and an unnumbered detail fragment opens an unknown-title item holding it
as the only detail.  The wrapped demo title concatenates into a single
string. -/
theorem claim7_amended :
    (∀ (st : QState) (cm : CurMember) (ci : QuestionItem) (row : ParsedRow),
      st.cur = some cm → cm.curItem = some ci →
      isHeaderRow row = false →
      toHalf (jsTrim row.itemTitle) ≠ [] →
      matchNumRest (toHalf (jsTrim row.itemTitle)) = none →
      toHalf (jsTrim row.detail) = [] →
      processRowP st row =
        ⟨st.done, some ⟨cm.memberName, cm.order, cm.items,
          some ⟨ci.title ++ toHalf (jsTrim row.itemTitle), ci.details⟩⟩,
          st.orderCounter⟩) ∧
    (∀ (st : QState) (cm : CurMember) (ci : QuestionItem) (row : ParsedRow),
      st.cur = some cm → cm.curItem = some ci → ci.details ≠ [] →
      isHeaderRow row = false →
      toHalf (jsTrim row.itemTitle) = [] →
      toHalf (jsTrim row.detail) ≠ [] →
      matchNumRest (toHalf (jsTrim row.detail)) = none →
      processRowP st row =
        ⟨st.done, some ⟨cm.memberName, cm.order, cm.items,
          some ⟨ci.title,
            ci.details.dropLast ++
              [ci.details.getLastD [] ++ toHalf (jsTrim row.detail)]⟩⟩,
          st.orderCounter⟩) ∧
    (∀ (st : QState) (cm : CurMember) (row : ParsedRow),
      st.cur = some cm → cm.curItem = none →
      isHeaderRow row = false →
      toHalf (jsTrim row.itemTitle) ≠ [] →
      matchNumRest (toHalf (jsTrim row.itemTitle)) = none →
      toHalf (jsTrim row.detail) = [] →
      processRowP st row =
        ⟨st.done, some ⟨cm.memberName, cm.order, cm.items,
          some ⟨toHalf (jsTrim row.itemTitle), []⟩⟩, st.orderCounter⟩) ∧
    (∀ (st : QState) (cm : CurMember) (row : ParsedRow),
      st.cur = some cm → cm.curItem = none →
      isHeaderRow row = false →
      toHalf (jsTrim row.itemTitle) = [] →
      toHalf (jsTrim row.detail) ≠ [] →
      matchNumRest (toHalf (jsTrim row.detail)) = none →
      processRowP st row =
        ⟨st.done, some ⟨cm.memberName, cm.order, cm.items,
          some ⟨"(不明)".toList, [toHalf (jsTrim row.detail)]⟩⟩,
          st.orderCounter⟩) ∧
    (∀ (st : QState) (cm : CurMember) (ci : QuestionItem) (row : ParsedRow),
      st.cur = some cm → cm.curItem = some ci →
      isHeaderRow row = false →
      matchNumRest (toHalf (jsTrim row.itemTitle)) = none →
      matchNumRest (toHalf (jsTrim row.detail)) = none →
      (processRowP st row).done = st.done ∧
      ∃ cm', (processRowP st row).cur = some cm' ∧
        cm'.items = cm.items ∧ cm'.curItem.isSome ∧
        cm'.memberName = cm.memberName ∧ cm'.order = cm.order) ∧
    parsePdfWithCoordinates [demoQuestionPage] =
      [⟨"山田太郎".toList, 1,
        [⟨"地域医療の充実について".toList, ["病院の体制について".toList]⟩]⟩] := by
  refine ⟨?_, ?_, ?_, ?_, ?_, by decide⟩
  · intro st cm ci row hcur hci hhead ht hnum hd
    have hmm := matchMemberName_none_of_no_digit _ hnum
    simp only [processRowP]
    rw [if_neg (by rw [hhead]; exact Bool.false_ne_true)]
    simp only [hmm, hd, hcur]
    rw [titlePhase_unnumbered cm ci _ hci ht hnum]
    unfold detailPhase
    rw [if_pos rfl]
  · intro st cm ci row hcur hci hds hhead ht hd hnum
    have hmm : matchMemberName (toHalf (jsTrim row.itemTitle)) = none := by
      rw [ht]; rfl
    have htp : titlePhase cm (toHalf (jsTrim row.itemTitle)) = cm := by
      rw [ht]; unfold titlePhase; rw [if_pos rfl]
    simp only [processRowP]
    rw [if_neg (by rw [hhead]; exact Bool.false_ne_true)]
    simp only [hmm, hcur, htp]
    rw [detailPhase_unnumbered cm ci _ hci hd hds hnum]
  · intro st cm row hcur hci hhead ht hnum hd
    have hmm := matchMemberName_none_of_no_digit _ hnum
    simp only [processRowP]
    rw [if_neg (by rw [hhead]; exact Bool.false_ne_true)]
    simp only [hmm, hd, hcur]
    rw [titlePhase_noitem cm _ hci ht hnum]
    unfold detailPhase
    rw [if_pos rfl]
  · intro st cm row hcur hci hhead ht hd hnum
    have hmm : matchMemberName (toHalf (jsTrim row.itemTitle)) = none := by
      rw [ht]; rfl
    have htp : titlePhase cm (toHalf (jsTrim row.itemTitle)) = cm := by
      rw [ht]; unfold titlePhase; rw [if_pos rfl]
    simp only [processRowP]
    rw [if_neg (by rw [hhead]; exact Bool.false_ne_true)]
    simp only [hmm, hcur, htp]
    rw [detailPhase_noitem cm _ hci hd]
  · intro st cm ci row hcur hci hhead hnt hnd
    have hmm := matchMemberName_none_of_no_digit _ hnt
    simp only [processRowP]
    rw [if_neg (by rw [hhead]; exact Bool.false_ne_true)]
    simp only [hmm, hcur]
    obtain ⟨h1, h2, h3, h4⟩ := titlePhase_frame cm ci _ hci hnt
    cases hoc : (titlePhase cm (toHalf (jsTrim row.itemTitle))).curItem with
    | none => rw [hoc] at h2; cases h2
    | some ci2 =>
      obtain ⟨g1, g2, g3, g4⟩ := detailPhase_frame _ ci2 _ hoc hnd
      refine ⟨by trivial,
        detailPhase (titlePhase cm (toHalf (jsTrim row.itemTitle)))
          (toHalf (jsTrim row.detail)), by trivial, ?_, ?_, ?_, ?_⟩
      · rw [g1, h1]
      · exact g2
      · rw [g3, h3]
      · rw [g4, h4]

/-- Witness for the amended claim C7 at a concrete wrapped-title row. -/
theorem claim7_witness :
    processRowP demo7State demo7Row =
      ⟨[], some ⟨"山田太郎".toList, 1, [],
        some ⟨"地域医療の充実について".toList, []⟩⟩, 1⟩ := by
  have h := claim7_amended.1 demo7State
    ⟨"山田太郎".toList, 1, [], some ⟨"地域医療".toList, []⟩⟩
    ⟨"地域医療".toList, []⟩ demo7Row rfl rfl (by decide) (by decide)
    (by decide) (by decide)
  exact h

/-! ## The speaker resolver never resolves (trim strips the ideographic
space, so the family-given separator test in the candidate-name walk can
never hold) -/

/-- The head that dropWhile leaves does not satisfy the predicate. -/
theorem dropWhile_head_not (p : Char → Bool) :
    ∀ (l : List Char) (c : Char) (cs : List Char),
      l.dropWhile p = c :: cs → p c = false := by
  intro l
  induction l with
  | nil => intro c cs h; cases h
  | cons a l ih =>
    intro c cs h
    rw [List.dropWhile_cons] at h
    by_cases pa : p a = true
    · rw [if_pos pa] at h
      exact ih c cs h
    · rw [if_neg pa] at h
      cases h
      exact Bool.not_eq_true _ |>.mp pa

/-- A trimmed line is never a lone whitespace character. -/
theorem jsTrim_ne_singleton_ws (s : Str) (c : Char) (hws : isJsWs c = true) :
    jsTrim s ≠ [c] := by
  intro h
  unfold jsTrim at h
  have h2 : (s.dropWhile isJsWs).reverse.dropWhile isJsWs = [c] := by
    have := congrArg List.reverse h
    rwa [List.reverse_reverse] at this
  have := dropWhile_head_not isJsWs _ c [] h2
  rw [hws] at this
  cases this

/-- Every line the candidate-name walk collects is a single ideograph
(the lone-separator alternative can never hold on trimmed lines). -/
theorem collectKanjiLines_kanji (lines : List Str) :
    ∀ (ks : List Nat) (t : Str), t ∈ collectKanjiLines lines ks →
      singleKanji t = true := by
  intro ks
  induction ks with
  | nil => intro t h; cases h
  | cons k rest ih =>
    intro t h
    rw [collectKanjiLines] at h
    split at h
    case isTrue hcond =>
      rcases List.mem_cons.mp h with h1 | h1
      · subst h1
        rcases hcond with h2 | h2
        · exact h2
        · exact absurd h2 (jsTrim_ne_singleton_ws _ _ (by decide))
      · exact ih t h1
    case isFalse => cases h

/-- The candidate-name fold never sees the separator, so it never opens
the given-name part. -/
theorem parseSingleName_none (chars : List Str)
    (h : ∀ t ∈ chars, singleKanji t = true) : parseSingleName chars = none := by
  simp only [parseSingleName]
  split
  · rfl
  · split
    · rfl
    · have hfold : ∀ (l : List Str) (fam : Str),
          (∀ t ∈ l, singleKanji t = true) →
          (l.foldl
            (fun (acc : Str × Bool × Str) ch =>
              if ch = [ideoSpace] then
                if acc.1 ≠ [] ∧ ¬ acc.2.1 then (acc.1, true, acc.2.2) else acc
              else if acc.2.1 then (acc.1, acc.2.1, acc.2.2 ++ ch)
                else (acc.1 ++ ch, acc.2.1, acc.2.2))
            (fam, false, [])).2.2 = [] := by
        intro l
        induction l with
        | nil => intro fam _; rfl
        | cons ch l ihl =>
          intro fam hl
          have hch : singleKanji ch = true := hl ch (List.mem_cons_self ch l)
          have hne : ch ≠ [ideoSpace] := by
            intro he
            rw [he] at hch
            exact absurd hch (by decide)
          rw [List.foldl_cons]
          rw [if_neg hne]
          simp only [Bool.false_eq_true, if_neg, if_false]
          exact ihl (fam ++ ch) (fun t ht => hl t (List.mem_cons_of_mem ch ht))
      have hmem : ∀ t ∈ chars.filter (· ≠ ([] : Str)), singleKanji t = true :=
        fun t ht => h t (List.mem_filter.mp ht).1
      rw [if_neg]
      intro hcon
      rw [hfold _ [] hmem] at hcon
      exact hcon.2 rfl

/-- No candidate built from the walk is ever accepted. -/
theorem acceptCandidate_above_none (memberNames lines : List Str) (i : Nat) :
    acceptCandidate memberNames (nameCharsAbove lines i) = none := by
  unfold acceptCandidate
  rw [parseSingleName_none]
  intro t ht
  exact collectKanjiLines_kanji lines _ t (List.mem_reverse.mp ht)

/-- No candidate below the marker is ever accepted. -/
theorem acceptCandidate_below_none (memberNames lines : List Str) (k : Nat) :
    acceptCandidate memberNames (nameCharsBelowFrom lines k) = none := by
  unfold acceptCandidate
  rw [parseSingleName_none]
  intro t ht
  exact collectKanjiLines_kanji lines _ t ht

/-- The primary phase of the speaker resolver always fails. -/
theorem speakerPhase1_none (lines memberNames : List Str) :
    speakerPhase1 lines memberNames = none := by
  unfold speakerPhase1
  split
  · rfl
  · simp [List.findSome?, acceptCandidate_above_none,
      acceptCandidate_below_none]

/-- The fallback phase of the speaker resolver always fails. -/
theorem speakerPhase2_none (lines memberNames : List Str) :
    ∀ ks, speakerPhase2 lines memberNames ks = none := by
  intro ks
  induction ks with
  | nil => rfl
  | cons i rest ih =>
    simp only [speakerPhase2]
    rw [acceptCandidate_above_none, acceptCandidate_below_none, ih]
    split <;> (try split) <;> rfl

/-- The speaker resolver never resolves a member. -/
theorem findSpeaker_none (text : Str) (memberNames : List Str) :
    findSpeakerFromVerticalText text memberNames = none := by
  simp only [findSpeakerFromVerticalText]
  rw [speakerPhase1_none]
  exact speakerPhase2_none _ _ _

/-! ## No emitted vote entry ever carries the presiding value -/

/-- One inner-loop step only appends extractor output to the symbols. -/
theorem innerStep_no_gichou (lines : List Str) (i : Nat) (tp : List Str)
    (vs : List Vote) (res : Str) (sp : Int)
    (h : ∀ v ∈ vs, v ≠ Vote.gichou) (tp' : List Str) (vs' : List Vote)
    (res' : Str) (sp' : Int)
    (hstep : innerStep lines i tp vs res sp = some (tp', vs', res', sp')) :
    ∀ v ∈ vs', v ≠ Vote.gichou := by
  intro v hv
  delta innerStep innerStepCore at hstep
  have h1 := fun w => extractVoteSymbols_range
    ((jsTrim (lines.getD i [])).takeWhile (fun c => c ≠ '議')) w
  have h2 := fun w => extractVoteSymbols_range
    (removeUpToMarker (jsTrim (lines.getD i []))) w
  have h3 := fun w => extractVoteSymbols_range (jsTrim (lines.getD i [])) w
  generalize hg1 : extractVoteSymbols
    ((jsTrim (lines.getD i [])).takeWhile (fun c => c ≠ '議')) = e1 at hstep h1
  generalize hg2 : extractVoteSymbols
    (removeUpToMarker (jsTrim (lines.getD i []))) = e2 at hstep h2
  generalize hg3 : extractVoteSymbols (jsTrim (lines.getD i [])) = e3 at hstep h3
  generalize hg0 : jsTrim (lines.getD i []) = nl at hstep
  generalize hg4 : jsTrim (lines.getD (i + 1) []) = nl2 at hstep
  by_cases c1 : nl = []
  · rw [if_pos c1] at hstep
    cases hstep
    exact h v hv
  · rw [if_neg c1] at hstep
    by_cases c2 : (findBill nl).isSome = true
    · rw [if_pos c2] at hstep
      exact Option.noConfusion hstep
    · rw [if_neg c2] at hstep
      by_cases c3 : stopHeader nl = true
      · rw [if_pos c3] at hstep
        exact Option.noConfusion hstep
      · rw [if_neg c3] at hstep
        by_cases c4 : singleKanji nl = true ∧ kanjiOrSpace1 nl2 = true
        · rw [if_pos c4] at hstep
          exact Option.noConfusion hstep
        · rw [if_neg c4] at hstep
          by_cases c5 : categoryStop nl = true ∧
            ¬ hasSub "議長のため".toList nl = true
          · rw [if_pos c5] at hstep
            exact Option.noConfusion hstep
          · rw [if_neg c5] at hstep
            by_cases c6 : hasSub "議長".toList nl = true ∨
              (hasSub "議".toList nl = true ∧ nl2 = ['長'])
            · rw [if_pos c6] at hstep
              by_cases c7 : e1 ≠ []
              · rw [if_pos c7] at hstep
                cases hstep
                rcases List.mem_append.mp hv with hva | hvb
                · rcases List.mem_append.mp hva with hm1 | hm2
                  · exact h v hm1
                  · exact (h1 v hm2).1
                · exact (h2 v hvb).1
              · rw [if_neg c7] at hstep
                cases hstep
                exact h v hv
            · rw [if_neg c6] at hstep
              by_cases c8 : e3 ≠ []
              · rw [if_pos c8] at hstep
                cases hstep
                rcases List.mem_append.mp hv with hva | hvb
                · exact h v hva
                · exact (h3 v hvb).1
              · rw [if_neg c8] at hstep
                by_cases c9 : extractResult nl ≠ []
                · rw [if_pos c9] at hstep
                  cases hstep
                  exact h v hv
                · rw [if_neg c9] at hstep
                  by_cases c10 : (¬ voteSymStart nl = true ∧
                      ¬ titleStart3 nl = true ∧ tp ≠ []) ∨ vs = []
                  · rw [if_pos c10] at hstep
                    by_cases c11 : nl.length > 1 ∧ ¬ allIdeo nl = true ∧
                      ¬ titleStart5 nl = true
                    · rw [if_pos c11] at hstep
                      cases hstep
                      exact h v hv
                    · rw [if_neg c11] at hstep
                      cases hstep
                      exact h v hv
                  · rw [if_neg c10] at hstep
                    cases hstep
                    exact h v hv

/-- The inner loop preserves freedom from the presiding value. -/
theorem innerLoopGo_no_gichou (lines : List Str) :
    ∀ (fuel i : Nat) (tp : List Str) (vs : List Vote) (res : Str) (sp : Int),
      (∀ v ∈ vs, v ≠ Vote.gichou) →
      ∀ v ∈ (innerLoopGo lines fuel i tp vs res sp).2.2.1, v ≠ Vote.gichou := by
  intro fuel
  induction fuel with
  | zero => intro i tp vs res sp h v hv; exact h v hv
  | succ fuel ih =>
    intro i tp vs res sp h v hv
    rw [innerLoopGo] at hv
    split at hv
    · rcases hstep : innerStep lines i tp vs res sp with _ | q
      · rw [hstep] at hv
        exact h v hv
      · obtain ⟨tp', vs', res', sp'⟩ := q
        rw [hstep] at hv
        exact ih (i + 1) tp' vs' res' sp'
          (innerStep_no_gichou lines i tp vs res sp h tp' vs' res' sp' hstep)
          v hv
    · exact h v hv

/-- The bill-line seed symbols are extractor output. -/
theorem billLineSeed_no_gichou (afterBillNumber : Str) :
    ∀ v ∈ (billLineSeed afterBillNumber).2.1, v ≠ Vote.gichou := by
  intro v hv
  simp only [billLineSeed] at hv
  by_cases hc : extractVoteSymbols afterBillNumber ≠ []
  · rw [if_pos hc] at hv
    exact (extractVoteSymbols_range afterBillNumber v hv).1
  · rw [if_neg hc] at hv
    by_cases hc2 : jsTrim afterBillNumber ≠ [] ∧
        ¬ titleGuardStart (jsTrim afterBillNumber) = true
    · rw [if_pos hc2] at hv
      cases hv
    · rw [if_neg hc2] at hv
      cases hv

/-- Every collected bill block's symbols are free of the presiding
value. -/
theorem outerLoopGo_no_gichou (lines : List Str) :
    ∀ (fuel i : Nat) (b : BillBlock), b ∈ outerLoopGo lines fuel i →
      ∀ v ∈ b.voteSymbols, v ≠ Vote.gichou := by
  intro fuel
  induction fuel with
  | zero => intro i b hb; cases hb
  | succ fuel ih =>
    intro i b hb
    simp only [outerLoopGo] at hb
    split at hb
    · split at hb
      · exact ih (i + 1) b hb
      · split at hb
        · rcases List.mem_cons.mp hb with h1 | h1
          · subst h1
            intro v hv
            unfold outerStep at hv
            exact innerLoopGo_no_gichou lines _ _ _ _ _ _
              (billLineSeed_no_gichou _) v hv
          · exact ih _ b h1
        · exact ih _ b hb
    · cases hb

/-- With no resolved speaker, an assembled record's entries all come from
the block's symbols. -/
theorem assembleBlock_none_no_gichou (ms : List Str) (b : BillBlock)
    (r : VoteRecord) (hr : (assembleBlock ms none b).1 = some r)
    (hb : ∀ v ∈ b.voteSymbols, v ≠ Vote.gichou) :
    ∀ e ∈ r.votes, e.vote ≠ Vote.gichou := by
  simp only [assembleBlock] at hr
  rw [dif_neg (by rintro ⟨_, hs⟩; simp at hs)] at hr
  split at hr
  · split at hr
    · cases hr
      intro e he
      exact hb e.vote (vote_mem_of_mem_zipWith _ _ _ he)
    · cases hr
  · split at hr
    · split at hr
      · cases hr
        intro e he
        exact hb e.vote (vote_mem_of_mem_zipWith _ _ _ he)
      · cases hr
    · cases hr

/-- claim C2 (the code diverges from this claim): the speaker resolver
never resolves any member on any input, because the candidate-name lines
are trimmed before the lone-separator comparison and trimming strips the
ideographic space; consequently no output vote entry of any document ever
carries the presiding value, against the claimed exactly-one-presiding
fixture behavior. -/
theorem claim2_speaker_never_resolved :
    ∀ (text : Str) (memberNames : List Str),
      findSpeakerFromVerticalText text memberNames = none ∧
      ((parseVotingText text).1.map
        (fun r => r.votes.countP (fun e => e.vote = Vote.gichou))).sum = 0 := by
  intro text memberNames
  refine ⟨findSpeaker_none text memberNames, ?_⟩
  apply List.sum_eq_zero
  intro x hx
  obtain ⟨r, hr, hcnt⟩ := List.mem_map.mp hx
  rw [← hcnt]
  rw [List.countP_eq_zero]
  by_cases hm : extractMemberNames (toHalf text) = []
  · simp [parseVotingText, hm] at hr
  · rw [show (parseVotingText text).1 =
        (assembleFold (extractMemberNames (toHalf text))
          (findSpeakerFromVerticalText text (extractMemberNames (toHalf text)))
          (outerLoop (splitOnNl (toHalf text)) 0)
          ([], LogMsg.foundMembers (extractMemberNames (toHalf text)).length ::
            (match findSpeakerFromVerticalText text
                (extractMemberNames (toHalf text)) with
             | some s => [LogMsg.speakerFound s]
             | none => []))).1 by
          simp [parseVotingText, hm]] at hr
    rcases mem_assembleFold _ _ _ _ r hr with h1 | ⟨b, hbmem, he⟩
    · simp at h1
    · rw [findSpeaker_none] at he
      have hbv : ∀ v ∈ b.voteSymbols, v ≠ Vote.gichou :=
        outerLoopGo_no_gichou (splitOnNl (toHalf text)) _ _ b hbmem
      have := assembleBlock_none_no_gichou _ b r he hbv
      intro e hemem
      simp only [decide_eq_true_eq]
      exact this e hemem

/-! ## The separator repair: every dictionary occurrence gains its
separator -/

/-- A sequence is related to itself by separator insertion. -/
theorem sepInserted_refl : ∀ s : Str, SepInserted s s
  | [] => SepInserted.nil
  | c :: cs => SepInserted.cons c cs cs (sepInserted_refl cs)

/-- Separator insertion is stable under a common prefix. -/
theorem sepInserted_append_left (w : Str) {s t : Str} (h : SepInserted s t) :
    SepInserted (w ++ s) (w ++ t) := by
  induction w with
  | nil => simpa using h
  | cons a w ih =>
    simp only [List.cons_append]
    exact SepInserted.cons a (w ++ s) (w ++ t) ih

/-- A family-repair pass only inserts separators. -/
theorem fixFamGo_sepInserted (p : Char) (ps : Str) :
    ∀ (fuel : Nat) (s : Str), SepInserted s (fixFamGo p ps fuel s) := by
  intro fuel
  induction fuel with
  | zero => intro s; exact sepInserted_refl s
  | succ fuel ih =>
    intro s
    match s with
    | [] => exact SepInserted.nil
    | c :: cs =>
      rw [fixFamGo]
      split
      next hcond =>
        obtain ⟨e, he⟩ := (leadsWith_iff (p :: ps) (c :: cs)).mp hcond.1
        have hd : (c :: cs).drop (ps.length + 1) = e := by
          rw [← he]; exact List.drop_left (p :: ps) e
        rw [hd, ← he]
        exact sepInserted_append_left (p :: ps)
          (SepInserted.ins e (fixFamGo p ps fuel e) (ih e))
      next => exact SepInserted.cons c cs _ (ih cs)

/-- A separator-free pattern that leads an insertion image also leads
the original. -/
theorem sepInserted_leadsWith {s t : Str} (h : SepInserted s t) :
    ∀ w : Str, ideoSpace ∉ w → leadsWith w t = true → leadsWith w s = true := by
  induction h with
  | nil => intro w _ hw; exact hw
  | cons c s t hst ih =>
    intro w hsp hw
    match w, hw with
    | [], _ => rfl
    | a :: w, hw =>
      simp only [leadsWith, Bool.and_eq_true, decide_eq_true_eq] at hw ⊢
      exact ⟨hw.1, ih w (fun hm => hsp (List.mem_cons_of_mem a hm)) hw.2⟩
  | ins s t hst ih =>
    intro w hsp hw
    match w, hw with
    | [], _ => rfl
    | a :: w, hw =>
      exfalso
      have ha : a = ideoSpace := by
        simp only [leadsWith, Bool.and_eq_true, decide_eq_true_eq] at hw
        exact hw.1
      exact hsp (ha ▸ List.mem_cons_self a w)

/-- Dropping a separator-free leading pattern preserves the insertion
relation. -/
theorem sepInserted_drop :
    ∀ (w : Str), ideoSpace ∉ w → ∀ {s t : Str}, SepInserted s t →
      leadsWith w t = true → SepInserted (s.drop w.length) (t.drop w.length) := by
  intro w
  induction w with
  | nil =>
    intro _ s t h _
    simpa using h
  | cons a w ih =>
    intro hsp s t h hw
    cases h with
    | nil => exact absurd hw (by simp [leadsWith])
    | cons c s2 t2 hst =>
      have hw2 : leadsWith w t2 = true := by
        simp only [leadsWith, Bool.and_eq_true, decide_eq_true_eq] at hw
        exact hw.2
      simpa using ih (fun hm => hsp (List.mem_cons_of_mem a hm)) hst hw2
    | ins s2 t2 hst =>
      exfalso
      have ha : a = ideoSpace := by
        simp only [leadsWith, Bool.and_eq_true, decide_eq_true_eq] at hw
        exact hw.1
      exact hsp (ha ▸ List.mem_cons_self a w)

/-- An insertion image of a separator-headed sequence is separator
headed. -/
theorem sepInserted_head_sep {r x : Str}
    (h : SepInserted (ideoSpace :: r) x) : ∃ y, x = ideoSpace :: y := by
  cases h with
  | cons c s t hst => exact ⟨t, rfl⟩
  | ins s t hst => exact ⟨t, rfl⟩

/-- A separator-free pattern that leads into a separator-terminated
stretch fits inside it. -/
theorem leadsWith_sep_length_le :
    ∀ (fam w r : Str), ideoSpace ∉ fam →
      leadsWith fam (w ++ ideoSpace :: r) = true → fam.length ≤ w.length := by
  intro fam
  induction fam with
  | nil => intro w r _ _; simp
  | cons a fam ih =>
    intro w r hsp hw
    match w with
    | [] =>
      exfalso
      have ha : a = ideoSpace := by
        simp only [List.nil_append, leadsWith, Bool.and_eq_true,
          decide_eq_true_eq] at hw
        exact hw.1
      exact hsp (ha ▸ List.mem_cons_self a fam)
    | b :: w =>
      have h2 : leadsWith fam (w ++ ideoSpace :: r) = true := by
        simp only [List.cons_append, leadsWith, Bool.and_eq_true,
          decide_eq_true_eq] at hw
        exact hw.2
      exact Nat.succ_le_succ (ih w r (fun hm => hsp (List.mem_cons_of_mem a hm)) h2)

/-- When the scan sits inside a separator-terminated proper prefix of
the family, the repair pass copies it unchanged up to the separator. -/
theorem fixFamGo_keep (p : Char) (ps : Str) (hsp : ideoSpace ∉ p :: ps) :
    ∀ (fuel : Nat) (w r : Str), ideoSpace ∉ w → w.length ≤ ps.length →
      leadsWith (w ++ [ideoSpace])
        (fixFamGo p ps fuel (w ++ ideoSpace :: r)) = true := by
  intro fuel
  induction fuel with
  | zero =>
    intro w r _ _
    rw [fixFamGo]
    exact (leadsWith_iff _ _).mpr ⟨r, by simp⟩
  | succ fuel ih =>
    intro w r hw hlen
    match w with
    | [] =>
      simp only [List.nil_append]
      rw [fixFamGo, if_neg]
      · simp [leadsWith]
      · intro hcond
        have hp : p = ideoSpace := by
          have h1 := hcond.1
          simp only [leadsWith, Bool.and_eq_true, decide_eq_true_eq] at h1
          exact h1.1
        exact hsp (hp ▸ List.mem_cons_self p ps)
    | b :: w =>
      have hlen2 : w.length ≤ ps.length := by
        simp only [List.length_cons] at hlen
        omega
      simp only [List.cons_append]
      rw [fixFamGo, if_neg]
      · simp only [leadsWith, Bool.and_eq_true, decide_eq_true_eq]
        exact ⟨trivial, ih w r (fun hm => hw (List.mem_cons_of_mem b hm)) hlen2⟩
      · intro hcond
        have hle := leadsWith_sep_length_le (p :: ps) (b :: w) r hsp hcond.1
        have hweq : w.length = ps.length := by
          simp only [List.length_cons] at hle
          omega
        apply hcond.2
        have hdr : (b :: (w ++ ideoSpace :: r)).drop (ps.length + 1)
            = ideoSpace :: r := by
          rw [List.drop_succ_cons, ← hweq]
          exact List.drop_left w (ideoSpace :: r)
        rw [hdr]
        rfl

/-- After one family-repair pass, every occurrence of that family is
followed by the separator. -/
theorem fixFamGo_sepFollows (p : Char) (ps : Str) (hsp : ideoSpace ∉ p :: ps) :
    ∀ (fuel : Nat) (s : Str), s.length ≤ fuel →
      SepFollows (p :: ps) (fixFamGo p ps fuel s) := by
  intro fuel
  induction fuel with
  | zero =>
    intro s hlen
    have hs : s = [] := List.length_eq_zero.mp (Nat.le_zero.mp hlen)
    subst hs
    intro k hk
    rw [fixFamGo] at hk
    simp [leadsWith] at hk
  | succ fuel ih =>
    intro s hlen
    match s with
    | [] =>
      intro k hk
      rw [fixFamGo] at hk
      simp [leadsWith] at hk
    | c :: cs =>
      rw [fixFamGo]
      by_cases hcond : leadsWith (p :: ps) (c :: cs) = true ∧
        ((c :: cs).drop (ps.length + 1)).head? ≠ some ideoSpace
      · rw [if_pos hcond]
        obtain ⟨e, he⟩ := (leadsWith_iff (p :: ps) (c :: cs)).mp hcond.1
        have hd : (c :: cs).drop (ps.length + 1) = e := by
          rw [← he]; exact List.drop_left (p :: ps) e
        rw [hd]
        have hel : e.length ≤ fuel := by
          have hlc := congrArg List.length he
          simp only [List.length_append, List.length_cons] at hlc hlen
          omega
        have hX := ih e hel
        intro k hk
        rcases Nat.lt_or_ge k 1 with hk0 | hk1
        · have hk0 : k = 0 := by omega
          subst hk0
          refine ⟨fixFamGo p ps fuel e, ?_⟩
          have hdl := List.drop_left (p :: ps) (ideoSpace :: fixFamGo p ps fuel e)
          simp only [List.length_cons, Nat.zero_add] at hdl ⊢
          exact hdl
        · rcases Nat.lt_or_ge k (ps.length + 2) with hkle | hkgt
          · exfalso
            have hk2 : k ≤ (p :: ps).length := by
              simp only [List.length_cons]
              omega
            rw [List.drop_append_of_le_length hk2] at hk
            have hle := leadsWith_sep_length_le (p :: ps) ((p :: ps).drop k)
              (fixFamGo p ps fuel e) hsp hk
            simp only [List.length_drop, List.length_cons] at hle
            omega
          · have hsplit : (p :: ps) ++ ideoSpace :: fixFamGo p ps fuel e =
                ((p :: ps) ++ [ideoSpace]) ++ fixFamGo p ps fuel e := by
              simp
            have hk3 : k = ((p :: ps) ++ [ideoSpace]).length +
                (k - (ps.length + 2)) := by
              simp only [List.length_append, List.length_cons, List.length_nil]
              omega
            rw [hsplit, hk3, List.drop_append] at hk
            have hres := hX (k - (ps.length + 2)) hk
            obtain ⟨r, hr⟩ := hres
            refine ⟨r, ?_⟩
            have hk4 : k + (p :: ps).length =
                ((p :: ps) ++ [ideoSpace]).length +
                  (k - (ps.length + 2) + (p :: ps).length) := by
              simp only [List.length_append, List.length_cons, List.length_nil]
              omega
            rw [hsplit, hk4, List.drop_append]
            exact hr
      · rw [if_neg hcond]
        have hcs : cs.length ≤ fuel := by
          simp only [List.length_cons] at hlen
          omega
        have hX := ih cs hcs
        intro k hk
        cases k with
        | zero =>
          simp only [List.drop_zero] at hk
          have hins : SepInserted (c :: cs) (c :: fixFamGo p ps fuel cs) :=
            SepInserted.cons c cs (fixFamGo p ps fuel cs)
              (fixFamGo_sepInserted p ps fuel cs)
          have hlw : leadsWith (p :: ps) (c :: cs) = true :=
            sepInserted_leadsWith hins (p :: ps) hsp hk
          have hhd : ((c :: cs).drop (ps.length + 1)).head? = some ideoSpace := by
            by_contra hno
            exact hcond ⟨hlw, hno⟩
          obtain ⟨e, he⟩ := (leadsWith_iff (p :: ps) (c :: cs)).mp hlw
          have hd : (c :: cs).drop (ps.length + 1) = e := by
            rw [← he]; exact List.drop_left (p :: ps) e
          rw [hd] at hhd
          cases e with
          | nil => exact absurd hhd (by simp)
          | cons e0 e2 =>
            have he0 : e0 = ideoSpace := by
              simp only [List.head?] at hhd
              exact Option.some.inj hhd
            subst he0
            have hcseq : cs = ps ++ ideoSpace :: e2 := by
              have h5 := he
              simp only [List.cons_append] at h5
              exact ((List.cons.inj h5).2).symm
            have hkeep := fixFamGo_keep p ps hsp fuel ps e2
              (fun hm => hsp (List.mem_cons_of_mem p hm)) (Nat.le_refl _)
            rw [← hcseq] at hkeep
            obtain ⟨y, hy⟩ := (leadsWith_iff _ _).mp hkeep
            have hXy : fixFamGo p ps fuel cs = ps ++ ideoSpace :: y := by
              rw [← hy]
              simp
            refine ⟨y, ?_⟩
            simp only [Nat.zero_add, List.length_cons, List.drop_succ_cons]
            rw [hXy]
            exact List.drop_left ps (ideoSpace :: y)
        | succ j =>
          rw [List.drop_succ_cons] at hk
          have hres := hX j hk
          obtain ⟨r, hr⟩ := hres
          refine ⟨r, ?_⟩
          have hidx : j + 1 + (p :: ps).length = (j + (p :: ps).length) + 1 := by
            omega
          rw [hidx, List.drop_succ_cons]
          exact hr

/-- Restriction of the occurrence property to the tail. -/
theorem sepFollows_cons {fam t : Str} (c : Char) (h : SepFollows fam (c :: t)) :
    SepFollows fam t := by
  intro k hk
  have hres := h (k + 1) (by rwa [List.drop_succ_cons])
  rwa [show k + 1 + fam.length = (k + fam.length) + 1 from by omega,
    List.drop_succ_cons] at hres

/-- Separator insertion preserves the occurrence property of a
separator-free pattern. -/
theorem sepInserted_sepFollows (fam : Str) (hsp : ideoSpace ∉ fam)
    (hne : fam ≠ []) :
    ∀ {s t : Str}, SepInserted s t → SepFollows fam s → SepFollows fam t := by
  intro s t h
  induction h with
  | nil => exact id
  | cons c s t hst ih =>
    intro hg k hk
    cases k with
    | zero =>
      have hins : SepInserted (c :: s) (c :: t) := SepInserted.cons c s t hst
      simp only [List.drop_zero] at hk
      have hls : leadsWith fam (c :: s) = true :=
        sepInserted_leadsWith hins fam hsp hk
      obtain ⟨r0, hr0⟩ := hg 0 (by simpa using hls)
      have hdrop : SepInserted ((c :: s).drop fam.length)
          ((c :: t).drop fam.length) := sepInserted_drop fam hsp hins hk
      rw [show (0 : Nat) + fam.length = fam.length from by omega] at hr0 ⊢
      rw [hr0] at hdrop
      obtain ⟨y, hy⟩ := sepInserted_head_sep hdrop
      exact ⟨y, hy⟩
    | succ j =>
      obtain ⟨r0, hr0⟩ := ih (sepFollows_cons c hg) j
        (by rwa [List.drop_succ_cons] at hk)
      refine ⟨r0, ?_⟩
      rw [show j + 1 + fam.length = (j + fam.length) + 1 from by omega,
        List.drop_succ_cons]
      exact hr0
  | ins s t hst ih =>
    intro hg k hk
    cases k with
    | zero =>
      exfalso
      simp only [List.drop_zero] at hk
      match fam, hne, hsp, hk with
      | f :: fam2, _, hsp, hk =>
        have hf : f = ideoSpace := by
          simp only [leadsWith, Bool.and_eq_true, decide_eq_true_eq] at hk
          exact hk.1
        exact hsp (hf ▸ List.mem_cons_self f fam2)
    | succ j =>
      obtain ⟨r0, hr0⟩ := ih hg j (by rwa [List.drop_succ_cons] at hk)
      refine ⟨r0, ?_⟩
      rw [show j + 1 + fam.length = (j + fam.length) + 1 from by omega,
        List.drop_succ_cons]
      exact hr0

/-- The occurrence property rephrased over an explicit occurrence
decomposition. -/
theorem sepFollows_occurrence {fam t u rest : Str} (h : SepFollows fam t)
    (ht : t = u ++ fam ++ rest) : ∃ r, rest = ideoSpace :: r := by
  subst ht
  have h1 : leadsWith fam ((u ++ fam ++ rest).drop u.length) = true := by
    rw [List.append_assoc, List.drop_left u (fam ++ rest)]
    exact (leadsWith_iff fam (fam ++ rest)).mpr ⟨rest, rfl⟩
  obtain ⟨r, hr⟩ := h u.length h1
  refine ⟨r, ?_⟩
  rw [← hr]
  rw [show u.length + fam.length = (u ++ fam).length from
    (List.length_append u fam).symm]
  rw [List.drop_left]

/-- The three-family repair loop written out. -/
theorem fixSeps_eq (s : Str) :
    fixSeps s =
      fixFam '山' ['之', '内']
        (fixFam '河' ['原', '井'] (fixFam '久' ['保', '田'] s)) := rfl

/-- C8: after the three-character-family separator repair, every
dictionary family-name occurrence in the repaired sequence is followed
by the ideographic-space separator, and on the separator-less sequence
久保田裕一 the decoder returns exactly the one member 久保田　裕一. -/
theorem claim8_threechar_family_repair :
    (∀ (s fam u rest : Str), fam ∈ KNOWN_3CHAR_FAMILIES →
      fixSeps s = u ++ fam ++ rest → ∃ r, rest = ideoSpace :: r) ∧
    splitNamesFromSequence "久保田裕一".toList = ["久保田　裕一".toList] := by
  constructor
  · intro s fam u rest hmem hocc
    rw [fixSeps_eq] at hocc
    have hmem2 : fam = "久保田".toList ∨ fam = "河原井".toList ∨
        fam = "山之内".toList := by
      simpa [KNOWN_3CHAR_FAMILIES] using hmem
    rcases hmem2 with hfam | hfam | hfam
    · subst hfam
      refine sepFollows_occurrence ?_ hocc
      have h0 : SepFollows ('久' :: ['保', '田']) (fixFam '久' ['保', '田'] s) :=
        fixFamGo_sepFollows '久' ['保', '田'] (by decide) s.length s
          (Nat.le_refl _)
      have h1 := sepInserted_sepFollows ('久' :: ['保', '田']) (by decide)
        (by decide)
        (fixFamGo_sepInserted '河' ['原', '井'] (fixFam '久' ['保', '田'] s).length
          (fixFam '久' ['保', '田'] s)) h0
      exact sepInserted_sepFollows ('久' :: ['保', '田']) (by decide) (by decide)
        (fixFamGo_sepInserted '山' ['之', '内']
          (fixFam '河' ['原', '井'] (fixFam '久' ['保', '田'] s)).length
          (fixFam '河' ['原', '井'] (fixFam '久' ['保', '田'] s))) h1
    · subst hfam
      refine sepFollows_occurrence ?_ hocc
      have h0 : SepFollows ('河' :: ['原', '井'])
          (fixFam '河' ['原', '井'] (fixFam '久' ['保', '田'] s)) :=
        fixFamGo_sepFollows '河' ['原', '井'] (by decide)
          (fixFam '久' ['保', '田'] s).length (fixFam '久' ['保', '田'] s)
          (Nat.le_refl _)
      exact sepInserted_sepFollows ('河' :: ['原', '井']) (by decide) (by decide)
        (fixFamGo_sepInserted '山' ['之', '内']
          (fixFam '河' ['原', '井'] (fixFam '久' ['保', '田'] s)).length
          (fixFam '河' ['原', '井'] (fixFam '久' ['保', '田'] s))) h0
    · subst hfam
      refine sepFollows_occurrence ?_ hocc
      exact fixFamGo_sepFollows '山' ['之', '内'] (by decide)
        (fixFam '河' ['原', '井'] (fixFam '久' ['保', '田'] s)).length
        (fixFam '河' ['原', '井'] (fixFam '久' ['保', '田'] s)) (Nat.le_refl _)
  · decide

end KiryuLog

